import Mathlib

/-!
# Verification of the metadata-remote client-side consistency engine

Shallow embedding, in Lean 4, of the client-side state management code of the
metadata-remote repository (file-pane manager, folder-tree manager, UI bulk
runner).  JavaScript strings are modelled as `List Char` (`JStr`); JS `Set`s
as `Finset`; JS objects used as string-keyed maps are modelled by their key
sets; `async` interleavings are modelled by explicit event traces.
`Array.prototype.sort(cmp)` (stable per ECMAScript) is modelled as the stable
insertion sort with respect to the relation `cmp a b ≤ 0`; JS string
comparison and `localeCompare` are modelled as code-point lexicographic order
(the `LinearOrder (List Char)` lexicographic instance).
-/

namespace MetadataRemote

/-- JavaScript strings, modelled as lists of characters. -/
abbrev JStr := List Char

/-- `b.startsWith(a + '/')` — `b` is a strict descendant path of `a`.
Appears verbatim throughout the source
(e.g. `p.startsWith(other + '/')` in `deleteSelectedFolders`). -/
def startsDescB (a b : JStr) : Bool := (a ++ ['/']).isPrefixOf b

/-- The spec's Path Algebra predicate: `isAncestor(a, b)` is true iff
`b === a` or `b` starts with `a + '/'`. -/
def isAncestorB (a b : JStr) : Bool := b == a || startsDescB a b

/-- The uniform prefix-replace of the spec's Path Algebra:
if `isAncestor(old, p)`, replace the `old` prefix by `new` keeping the
remainder (`new + p.slice(old.length)`), else return `p` unchanged.
The individual rewrite sites in the source are compared against this. -/
def specRewrite (oldP newP p : JStr) : JStr :=
  if p == oldP then newP
  else if startsDescB oldP p then newP ++ p.drop oldP.length
  else p

theorem startsDescB_iff {a b : JStr} :
    startsDescB a b = true ↔ ∃ t, b = a ++ '/' :: t := by
  unfold startsDescB
  rw [List.isPrefixOf_iff_prefix]
  constructor
  · rintro ⟨t, ht⟩
    exact ⟨t, by simpa using ht.symm⟩
  · rintro ⟨t, rfl⟩
    exact ⟨t, by simp⟩

theorem startsDescB_ne {a b : JStr} (h : startsDescB a b = true) : a ≠ b := by
  rcases startsDescB_iff.mp h with ⟨t, rfl⟩
  intro hab
  have := congrArg List.length hab
  simp at this

theorem specRewrite_of_not_ancestor {oldP newP p : JStr}
    (h : isAncestorB oldP p = false) : specRewrite oldP newP p = p := by
  unfold isAncestorB at h
  unfold specRewrite
  rcases Bool.or_eq_false_iff.mp h with ⟨h1, h2⟩
  rw [h1, h2]
  simp

theorem specRewrite_old {oldP newP : JStr} :
    specRewrite oldP newP oldP = newP := by
  unfold specRewrite
  simp

theorem specRewrite_desc {oldP newP t : JStr} :
    specRewrite oldP newP (oldP ++ '/' :: t) = newP ++ '/' :: t := by
  unfold specRewrite
  have hne : (oldP ++ '/' :: t == oldP) = false := by
    rw [beq_eq_false_iff_ne]
    intro hcontra
    have := congrArg List.length hcontra
    simp at this
  rw [hne]
  have hdesc : startsDescB oldP (oldP ++ '/' :: t) = true := by
    exact startsDescB_iff.mpr ⟨t, rfl⟩
  rw [hdesc]
  simp

theorem specRewrite_changes {oldP newP p : JStr} (hne : oldP ≠ newP)
    (h : isAncestorB oldP p = true) : specRewrite oldP newP p ≠ p := by
  unfold isAncestorB at h
  rcases Bool.or_eq_true_iff.mp h with h1 | h2
  · have : p = oldP := by exact beq_iff_eq.mp h1
    subst this
    rw [specRewrite_old]
    exact fun hc => hne hc.symm
  · rcases startsDescB_iff.mp h2 with ⟨t, rfl⟩
    rw [specRewrite_desc]
    intro hc
    exact hne (List.append_cancel_right hc.symm)

/-- `specRewrite` changes `p` exactly when `isAncestor(old, p)` holds
(for a genuine rename, `old ≠ new`). -/
theorem specRewrite_changes_iff {oldP newP p : JStr} (hne : oldP ≠ newP) :
    specRewrite oldP newP p ≠ p ↔ isAncestorB oldP p = true := by
  constructor
  · intro h
    by_contra hcontra
    have : isAncestorB oldP p = false := by
      cases hiso : isAncestorB oldP p
      · rfl
      · exact absurd hiso hcontra
    exact h (specRewrite_of_not_ancestor this)
  · exact specRewrite_changes hne

/-! ## Tree state and `updateFolderReferences` (Navigation.Tree)

`State.treeData` is a JS object keyed by folder path; only its key set
matters to the path-rewrite claims, so it is modelled by the `Finset` of its
keys (the attached child arrays are carried along verbatim by the source).
`State.expandedFolders` is a JS `Set` of paths. -/

structure TreeState where
  treeDataKeys : Finset JStr
  expandedFolders : Finset JStr
  currentPath : JStr
  currentFile : Option JStr
  deriving DecidableEq

/-- `updateFolderReferences(oldPath, newPath)` from the tree module:
1. re-key `treeData[oldPath]` to `newPath` (add new key, delete old);
2. in `expandedFolders`, delete `oldPath` and add `newPath` if present;
3. rewrite `currentPath` when it equals `oldPath` or starts with
   `oldPath + '/'`;
4. rewrite `currentFile` only when it starts with `oldPath + '/'`
   (note: no `=== oldPath` case in the source);
5. loop over the remaining `treeData` keys: every key starting with
   `oldPath + '/'` is re-keyed (add then delete), and when such a key is in
   `expandedFolders` it is rewritten there too.
The JS loop re-keys each strict-descendant key by an add-then-delete; on the
key set this equals the image of the conditional rewrite whenever the fresh
keys cannot collide with pending old keys, which holds whenever neither of
`oldPath`/`newPath` is an ancestor of the other (the hypotheses of the
theorems below; in the app both are siblings inside the same parent). -/
def updateFolderReferences (s : TreeState) (oldP newP : JStr) : TreeState :=
  let keys1 : Finset JStr :=
    if oldP ∈ s.treeDataKeys then (insert newP s.treeDataKeys).erase oldP
    else s.treeDataKeys
  let exp1 : Finset JStr :=
    if oldP ∈ s.expandedFolders then insert newP (s.expandedFolders.erase oldP)
    else s.expandedFolders
  let cp : JStr :=
    if s.currentPath == oldP then newP
    else if startsDescB oldP s.currentPath then newP ++ s.currentPath.drop oldP.length
    else s.currentPath
  let cf : Option JStr :=
    s.currentFile.map fun f =>
      if startsDescB oldP f then newP ++ f.drop oldP.length else f
  let keys2 : Finset JStr :=
    keys1.image fun k =>
      if startsDescB oldP k then newP ++ k.drop oldP.length else k
  let exp2 : Finset JStr :=
    exp1.image fun e =>
      if startsDescB oldP e = true ∧ e ∈ keys1 then newP ++ e.drop oldP.length else e
  { treeDataKeys := keys2, expandedFolders := exp2, currentPath := cp, currentFile := cf }

/-- The rewrite block of the folder-drop handler (`handleDrop` in
`createTreeItem`): `currentPath` and `currentFile` are rewritten when equal
to `oldPath` or starting with `oldPath + '/'`
(`newPath + path.slice(oldPath.length)`), and the expansion set is mapped by
the same conditional rewrite (then deduplicated through `new Set`). -/
def handleDropRewrite (currentPath : JStr) (currentFile : Option JStr)
    (expanded : Finset JStr) (oldP newP : JStr) :
    JStr × Option JStr × Finset JStr :=
  ( if currentPath == oldP || startsDescB oldP currentPath then
      newP ++ currentPath.drop oldP.length
    else currentPath
  , currentFile.map fun f =>
      if f == oldP || startsDescB oldP f then newP ++ f.drop oldP.length else f
  , expanded.image fun p =>
      if p == oldP || startsDescB oldP p then newP ++ p.drop oldP.length else p )

/-- The drop handler's conditional rewrite coincides with the spec's
prefix-replace at every path. -/
theorem dropRewrite_eq_specRewrite (oldP newP p : JStr) :
    (if p == oldP || startsDescB oldP p then newP ++ p.drop oldP.length else p)
      = specRewrite oldP newP p := by
  unfold specRewrite
  by_cases h1 : p = oldP
  · subst h1
    simp
  · have hb : (p == oldP) = false := beq_eq_false_iff_ne.mpr h1
    rw [hb]
    simp only [Bool.false_or]
    by_cases h2 : startsDescB oldP p = true
    · rw [h2]
      simp
    · have : startsDescB oldP p = false := by
        cases hh : startsDescB oldP p
        · rfl
        · exact absurd hh h2
      rw [this]
      simp

theorem startsDescB_self (a : JStr) : startsDescB a a = false := by
  cases h : startsDescB a a
  · rfl
  · exact absurd rfl (startsDescB_ne h)

theorem condRewrite_eq_spec {oldP newP k : JStr} (h : k ≠ oldP) :
    (if startsDescB oldP k then newP ++ k.drop oldP.length else k)
      = specRewrite oldP newP k := by
  unfold specRewrite
  rw [beq_eq_false_iff_ne.mpr h]
  simp

theorem treeDataKeys_updateFolderReferences (s : TreeState) {oldP newP : JStr}
    (hne : newP ≠ oldP) (hnd : startsDescB oldP newP = false) :
    (updateFolderReferences s oldP newP).treeDataKeys
      = s.treeDataKeys.image (specRewrite oldP newP) := by
  unfold updateFolderReferences
  simp only
  by_cases hmem : oldP ∈ s.treeDataKeys
  · rw [if_pos hmem, Finset.erase_insert_of_ne hne]
    rw [Finset.image_insert]
    have hnew : (if startsDescB oldP newP then newP ++ newP.drop oldP.length else newP)
        = newP := by rw [hnd]; simp
    rw [hnew]
    conv_rhs => rw [← Finset.insert_erase hmem]
    rw [Finset.image_insert, specRewrite_old]
    congr 1
    apply Finset.image_congr
    intro k hk
    exact condRewrite_eq_spec (Finset.mem_erase.mp hk).1
  · rw [if_neg hmem]
    apply Finset.image_congr
    intro k hk
    exact condRewrite_eq_spec (fun hc => hmem (hc ▸ hk))

theorem expandedFolders_updateFolderReferences (s : TreeState) {oldP newP : JStr}
    (hne : newP ≠ oldP) (hnd : startsDescB oldP newP = false)
    (hExp : ∀ e ∈ s.expandedFolders, startsDescB oldP e = true → e ∈ s.treeDataKeys) :
    (updateFolderReferences s oldP newP).expandedFolders
      = s.expandedFolders.image (specRewrite oldP newP) := by
  unfold updateFolderReferences
  simp only
  have hkeys1 : ∀ e, e ∈ s.expandedFolders → e ≠ oldP → startsDescB oldP e = true →
      e ∈ (if oldP ∈ s.treeDataKeys then (insert newP s.treeDataKeys).erase oldP
        else s.treeDataKeys) := by
    intro e he hene hdesc
    have hkey := hExp e he hdesc
    by_cases hmem : oldP ∈ s.treeDataKeys
    · rw [if_pos hmem]
      exact Finset.mem_erase.mpr ⟨hene, Finset.mem_insert_of_mem hkey⟩
    · rw [if_neg hmem]
      exact hkey
  have hcong : ∀ e, e ∈ s.expandedFolders → e ≠ oldP →
      (if startsDescB oldP e = true ∧
          e ∈ (if oldP ∈ s.treeDataKeys then (insert newP s.treeDataKeys).erase oldP
            else s.treeDataKeys) then newP ++ e.drop oldP.length else e)
        = specRewrite oldP newP e := by
    intro e he hene
    by_cases hdesc : startsDescB oldP e = true
    · rw [if_pos ⟨hdesc, hkeys1 e he hene hdesc⟩, ← condRewrite_eq_spec hene, hdesc]
      simp
    · have hdf : startsDescB oldP e = false := by
        cases hh : startsDescB oldP e
        · rfl
        · exact absurd hh hdesc
      rw [if_neg (fun hc => hdesc hc.1), ← condRewrite_eq_spec hene, hdf]
      simp
  by_cases hexp : oldP ∈ s.expandedFolders
  · rw [if_pos hexp, Finset.image_insert]
    have hnew : (if startsDescB oldP newP = true ∧
        newP ∈ (if oldP ∈ s.treeDataKeys then (insert newP s.treeDataKeys).erase oldP
          else s.treeDataKeys) then newP ++ newP.drop oldP.length else newP) = newP := by
      rw [if_neg]
      intro hc
      rw [hnd] at hc
      exact Bool.false_ne_true hc.1
    rw [hnew]
    conv_rhs => rw [← Finset.insert_erase hexp]
    rw [Finset.image_insert, specRewrite_old]
    congr 1
    apply Finset.image_congr
    intro e he
    have he' := Finset.mem_erase.mp he
    exact hcong e he'.2 he'.1
  · rw [if_neg hexp]
    apply Finset.image_congr
    intro e he
    by_cases hene : e = oldP
    · subst hene
      exact absurd he hexp
    · exact hcong e he hene

theorem currentFile_updateFolderReferences (s : TreeState) (oldP newP : JStr) :
    (updateFolderReferences s oldP newP).currentFile
      = s.currentFile.map fun f => if f = oldP then f else specRewrite oldP newP f := by
  unfold updateFolderReferences
  simp only
  cases s.currentFile with
  | none => rfl
  | some f =>
    show some _ = some _
    congr 1
    simp only
    by_cases hf : f = oldP
    · subst hf
      rw [if_pos rfl, startsDescB_self]
      simp
    · rw [if_neg hf]
      exact condRewrite_eq_spec hf

theorem handleDropRewrite_eq_spec (cp : JStr) (cf : Option JStr)
    (exp : Finset JStr) (oldP newP : JStr) :
    handleDropRewrite cp cf exp oldP newP
      = (specRewrite oldP newP cp, cf.map (specRewrite oldP newP),
          exp.image (specRewrite oldP newP)) := by
  unfold handleDropRewrite
  simp only [Prod.mk.injEq]
  refine ⟨dropRewrite_eq_specRewrite oldP newP cp, ?_, ?_⟩
  · cases cf with
    | none => rfl
    | some f =>
      show some _ = some _
      congr 1
      simp only
      exact dropRewrite_eq_specRewrite oldP newP f
  · apply Finset.image_congr
    intro p _
    exact dropRewrite_eq_specRewrite oldP newP p

/-- C3, counterexample to the claim as stated: after renaming folder `"a"` to
`"b"`, the current-file rewrite in `updateFolderReferences` leaves a current
file equal to `"a"` unchanged, although `isAncestor("a", "a")` holds and the
claimed uniform prefix-replace would produce `"b"`. -/
theorem C3_counterexample :
    (updateFolderReferences ⟨∅, ∅, ['x'], some ['a']⟩ ['a'] ['b']).currentFile
        = some ['a']
      ∧ isAncestorB ['a'] ['a'] = true
      ∧ specRewrite ['a'] ['b'] ['a'] = ['b']
      ∧ (['b'] : JStr) ≠ ['a'] := by decide

/-- C3 (amended): for a successful rename/move from `oldP` to `newP` (with
`oldP ≠ newP` and neither an ancestor of the other), the rewrite applied by
`updateFolderReferences` to the current folder, the expansion set (on states
where every expanded strict descendant of `oldP` is a subtree-cache key) and
the subtree-cache keys changes a path `p` iff `isAncestor(oldP, p)` holds,
replacing exactly the `oldP` segment and keeping the remainder verbatim, and
leaves every other path unchanged; the current-file rewrite does the same
except that `p = oldP` itself is left unchanged; the drop handler's rewrite
of current folder, current file and expansion set is exactly the uniform
prefix-replace. -/
theorem C3_pathRewrite (s : TreeState) (oldP newP : JStr)
    (hne : newP ≠ oldP) (hnd : startsDescB oldP newP = false)
    (hExp : ∀ e ∈ s.expandedFolders, startsDescB oldP e = true → e ∈ s.treeDataKeys) :
    (updateFolderReferences s oldP newP).currentPath
        = specRewrite oldP newP s.currentPath
      ∧ (updateFolderReferences s oldP newP).treeDataKeys
        = s.treeDataKeys.image (specRewrite oldP newP)
      ∧ (updateFolderReferences s oldP newP).expandedFolders
        = s.expandedFolders.image (specRewrite oldP newP)
      ∧ (updateFolderReferences s oldP newP).currentFile
        = s.currentFile.map (fun f => if f = oldP then f else specRewrite oldP newP f)
      ∧ (∀ cp cf exp, handleDropRewrite cp cf exp oldP newP
          = (specRewrite oldP newP cp, cf.map (specRewrite oldP newP),
              exp.image (specRewrite oldP newP)))
      ∧ (∀ p, specRewrite oldP newP p ≠ p ↔ isAncestorB oldP p = true)
      ∧ (∀ t, specRewrite oldP newP (oldP ++ '/' :: t) = newP ++ '/' :: t)
      ∧ specRewrite oldP newP oldP = newP := by
  refine ⟨rfl, treeDataKeys_updateFolderReferences s hne hnd,
    expandedFolders_updateFolderReferences s hne hnd hExp,
    currentFile_updateFolderReferences s oldP newP,
    fun cp cf exp => handleDropRewrite_eq_spec cp cf exp oldP newP,
    fun p => specRewrite_changes_iff (fun h => hne h.symm),
    fun t => specRewrite_desc, specRewrite_old⟩

/-- C3, witness: the amended theorem applied at a concrete state. -/
theorem C3_pathRewrite_witness :
    ((['b'] : JStr) ≠ ['a'] ∧ startsDescB ['a'] ['b'] = false ∧
      (∀ e ∈ ({['a']} : Finset JStr), startsDescB ['a'] e = true →
        e ∈ ({['a']} : Finset JStr)))
    ∧ ((updateFolderReferences ⟨{['a']}, {['a']}, ['a'], some ['a']⟩ ['a'] ['b']).currentPath
        = specRewrite ['a'] ['b'] ['a']
      ∧ (updateFolderReferences ⟨{['a']}, {['a']}, ['a'], some ['a']⟩ ['a'] ['b']).treeDataKeys
        = ({['a']} : Finset JStr).image (specRewrite ['a'] ['b'])
      ∧ (updateFolderReferences ⟨{['a']}, {['a']}, ['a'], some ['a']⟩ ['a'] ['b']).expandedFolders
        = ({['a']} : Finset JStr).image (specRewrite ['a'] ['b'])
      ∧ (updateFolderReferences ⟨{['a']}, {['a']}, ['a'], some ['a']⟩ ['a'] ['b']).currentFile
        = (some ['a']).map (fun f => if f = ['a'] then f else specRewrite ['a'] ['b'] f)
      ∧ (∀ cp cf exp, handleDropRewrite cp cf exp ['a'] ['b']
          = (specRewrite ['a'] ['b'] cp, cf.map (specRewrite ['a'] ['b']),
              exp.image (specRewrite ['a'] ['b'])))
      ∧ (∀ p, specRewrite ['a'] ['b'] p ≠ p ↔ isAncestorB ['a'] p = true)
      ∧ (∀ t, specRewrite ['a'] ['b'] (['a'] ++ '/' :: t) = ['b'] ++ '/' :: t)
      ∧ specRewrite ['a'] ['b'] ['a'] = ['b']) :=
  ⟨⟨by decide, by decide, by decide⟩,
    C3_pathRewrite ⟨{['a']}, {['a']}, ['a'], some ['a']⟩ ['a'] ['b']
      (by decide) (by decide) (by decide)⟩

/-! ## Request sequencer (C1)

`loadFile` captures `const requestId = ++State.loadFileRequestId` when the
request is issued and, when `API.getMetadata` resolves, applies the response
only `if (requestId !== State.loadFileRequestId)` is false.
`updateSelectedFolderStats` does the same with `this._statsRequestId`.
A slot is modelled by its counter plus the shared state the response would
mutate; an async interleaving is a trace of issue/arrive events. -/

def selectFileRange (items : List JStr) (sel : Finset JStr)
    (selectionAnchorPath : Option JStr) (selectedListItemPath : Option JStr)
    (target : JStr) (additive : Bool) : Finset JStr :=
  if items.isEmpty then sel
  else
    match items.findIdx? (fun it => it == target) with
    | none => sel
    | some targetIndex =>
      let anchorPath : Option JStr := selectionAnchorPath <|> selectedListItemPath
      let anchorIndex : Option Nat :=
        anchorPath.bind fun p => items.findIdx? (fun it => it == p)
      let a := anchorIndex.getD targetIndex
      let startIndex := min a targetIndex
      let endIndex := max a targetIndex
      let base := if additive then sel else (∅ : Finset JStr)
      ((items.drop startIndex).take (endIndex - startIndex + 1)).foldl
        (fun st p => insert p st) base

def selectFolderRange (items : List JStr) (sel : Finset JStr)
    (selectionAnchorPath : Option JStr) (selectedTreeItemPath : Option JStr)
    (target : JStr) (additive : Bool) : Finset JStr :=
  if items.isEmpty then sel
  else
    match items.findIdx? (fun it => it == target) with
    | none => sel
    | some targetIndex =>
      let anchorPath : Option JStr := selectionAnchorPath <|> selectedTreeItemPath
      let anchorIndex : Option Nat :=
        anchorPath.bind fun p => items.findIdx? (fun it => it == p)
      let a := anchorIndex.getD targetIndex
      let startIndex := min a targetIndex
      let endIndex := max a targetIndex
      let base := if additive then sel else (∅ : Finset JStr)
      ((items.drop startIndex).take (endIndex - startIndex + 1)).foldl
        (fun st p => insert p st) base

theorem selectFolderRange_eq_selectFileRange :
    @selectFolderRange = @selectFileRange := rfl

theorem foldl_insert_eq_union {α : Type} [DecidableEq α]
    (l : List α) (b : Finset α) :
    l.foldl (fun st p => insert p st) b = b ∪ l.toFinset := by
  induction l generalizing b with
  | nil => simp
  | cons x xs ih =>
    show xs.foldl (fun st p => insert p st) (insert x b) = _
    rw [ih]
    ext y
    simp only [Finset.mem_union, Finset.mem_insert, List.toFinset_cons, List.mem_toFinset]
    tauto

theorem mem_slice_iff {α : Type} (items : List α) (lo hi : Nat) (hle : lo ≤ hi)
    (x : α) :
    x ∈ (items.drop lo).take (hi - lo + 1)
      ↔ ∃ i, lo ≤ i ∧ i ≤ hi ∧ items[i]? = some x := by
  constructor
  · intro hx
    rcases List.mem_iff_getElem?.mp hx with ⟨j, hj⟩
    have hjlen : j < ((items.drop lo).take (hi - lo + 1)).length := by
      rcases List.getElem?_eq_some.mp hj with ⟨h, _⟩
      exact h
    have hjlt : j < hi - lo + 1 := by
      have := List.length_take (hi - lo + 1) (items.drop lo)
      omega
    rw [List.getElem?_take_of_lt hjlt, List.getElem?_drop] at hj
    exact ⟨lo + j, Nat.le_add_right _ _, by omega, hj⟩
  · rintro ⟨i, hlo, hhi, hi⟩
    apply List.mem_iff_getElem?.mpr
    refine ⟨i - lo, ?_⟩
    rw [List.getElem?_take_of_lt (by omega), List.getElem?_drop]
    have : lo + (i - lo) = i := by omega
    rw [this]
    exact hi

theorem findIdx?_beq_getElem {items : List JStr} {x : JStr} {i : Nat}
    (h : items.findIdx? (fun it => it == x) = some i) :
    items[i]? = some x := by
  rcases List.findIdx?_eq_some_iff_getElem.mp h with ⟨hlen, hbeq, _⟩
  have : items[i] = x := by
    have := of_decide_eq_true (by simpa using hbeq)
    exact this
  rw [List.getElem?_eq_getElem hlen, this]

theorem selectFileRange_resolved (items : List JStr) (sel : Finset JStr)
    (anchor cur : Option JStr) (target A : JStr) {tIdx aIdx : Nat}
    (ht : items.findIdx? (fun it => it == target) = some tIdx)
    (ha : (anchor <|> cur) = some A)
    (hA : items.findIdx? (fun it => it == A) = some aIdx) :
    selectFileRange items sel anchor cur target false
      = ((items.drop (min aIdx tIdx)).take
          (max aIdx tIdx - min aIdx tIdx + 1)).toFinset := by
  have hne : items.isEmpty = false := by
    cases items with
    | nil => simp at ht
    | cons y ys => rfl
  unfold selectFileRange
  rw [hne]
  simp only [Bool.false_eq_true, if_false, ht]
  rw [ha]
  simp only [Option.some_bind]
  rw [hA]
  simp only [Option.getD_some, Bool.false_eq_true, if_false]
  rw [foldl_insert_eq_union]
  simp

theorem selectFileRange_fallback (items : List JStr) (sel : Finset JStr)
    (anchor cur : Option JStr) (target : JStr) {tIdx : Nat}
    (ht : items.findIdx? (fun it => it == target) = some tIdx)
    (hnone : ((anchor <|> cur).bind fun p => items.findIdx? (fun it => it == p))
      = none) :
    selectFileRange items sel anchor cur target false = {target} := by
  have hne : items.isEmpty = false := by
    cases items with
    | nil => simp at ht
    | cons y ys => rfl
  unfold selectFileRange
  rw [hne]
  simp only [Bool.false_eq_true, if_false, ht]
  rw [hnone]
  simp only [Option.getD_none, Nat.min_self, Nat.max_self, Nat.sub_self,
    Bool.false_eq_true, if_false]
  rw [foldl_insert_eq_union]
  have htl : tIdx < items.length := by
    rcases List.findIdx?_eq_some_iff_getElem.mp ht with ⟨hlen, _, _⟩
    exact hlen
  rw [List.drop_eq_getElem_cons htl]
  have hget : items[tIdx] = target := by
    have h2 := findIdx?_beq_getElem ht
    rw [List.getElem?_eq_getElem htl] at h2
    exact Option.some.inj h2
  simp [hget]

/-- C2: for both panes, `selectRange(target, additive = false)` first clears
the selection and then selects exactly the items whose visible index lies in
the closed interval between the anchor's index and the target's index —
the result is the interval slice, is independent of the previous selection,
its members are exactly the paths at indices in `[min, max]`, it is the same
whether the anchor lies above or below the target, and when no anchor
resolves to a visible item the target alone is selected. -/
theorem C2_selectRange :
    (∀ (items : List JStr) (sel : Finset JStr) (anchor cur : Option JStr)
      (target A : JStr) (tIdx aIdx : Nat),
      items.findIdx? (fun it => it == target) = some tIdx →
      (anchor <|> cur) = some A →
      items.findIdx? (fun it => it == A) = some aIdx →
      (selectFileRange items sel anchor cur target false
          = ((items.drop (min aIdx tIdx)).take
              (max aIdx tIdx - min aIdx tIdx + 1)).toFinset
        ∧ ∀ x, x ∈ selectFileRange items sel anchor cur target false
            ↔ ∃ i, min aIdx tIdx ≤ i ∧ i ≤ max aIdx tIdx ∧ items[i]? = some x))
    ∧ (∀ (items : List JStr) (sel : Finset JStr) (cur : Option JStr)
      (target A : JStr) (tIdx aIdx : Nat),
      items.findIdx? (fun it => it == target) = some tIdx →
      items.findIdx? (fun it => it == A) = some aIdx →
      selectFileRange items sel (some A) cur target false
        = selectFileRange items sel (some target) cur A false)
    ∧ (∀ (items : List JStr) (sel : Finset JStr) (anchor cur : Option JStr)
      (target : JStr) (tIdx : Nat),
      items.findIdx? (fun it => it == target) = some tIdx →
      ((anchor <|> cur).bind fun p => items.findIdx? (fun it => it == p)) = none →
      selectFileRange items sel anchor cur target false = {target})
    ∧ (∀ (items : List JStr) (sel : Finset JStr) (anchor cur : Option JStr)
      (target A : JStr) (tIdx aIdx : Nat),
      items.findIdx? (fun it => it == target) = some tIdx →
      (anchor <|> cur) = some A →
      items.findIdx? (fun it => it == A) = some aIdx →
      ∀ x, x ∈ selectFolderRange items sel anchor cur target false
          ↔ ∃ i, min aIdx tIdx ≤ i ∧ i ≤ max aIdx tIdx ∧ items[i]? = some x)
    ∧ (∀ (items : List JStr) (sel : Finset JStr) (cur : Option JStr)
      (target A : JStr) (tIdx aIdx : Nat),
      items.findIdx? (fun it => it == target) = some tIdx →
      items.findIdx? (fun it => it == A) = some aIdx →
      selectFolderRange items sel (some A) cur target false
        = selectFolderRange items sel (some target) cur A false)
    ∧ (∀ (items : List JStr) (sel : Finset JStr) (anchor cur : Option JStr)
      (target : JStr) (tIdx : Nat),
      items.findIdx? (fun it => it == target) = some tIdx →
      ((anchor <|> cur).bind fun p => items.findIdx? (fun it => it == p)) = none →
      selectFolderRange items sel anchor cur target false = {target}) := by
  have hmem : ∀ (items : List JStr) (sel : Finset JStr) (anchor cur : Option JStr)
      (target A : JStr) (tIdx aIdx : Nat),
      items.findIdx? (fun it => it == target) = some tIdx →
      (anchor <|> cur) = some A →
      items.findIdx? (fun it => it == A) = some aIdx →
      ∀ x, x ∈ selectFileRange items sel anchor cur target false
          ↔ ∃ i, min aIdx tIdx ≤ i ∧ i ≤ max aIdx tIdx ∧ items[i]? = some x := by
    intro items sel anchor cur target A tIdx aIdx ht ha hA x
    rw [selectFileRange_resolved items sel anchor cur target A ht ha hA]
    rw [List.mem_toFinset]
    exact mem_slice_iff items _ _ (min_le_max) x
  have hsym : ∀ (items : List JStr) (sel : Finset JStr) (cur : Option JStr)
      (target A : JStr) (tIdx aIdx : Nat),
      items.findIdx? (fun it => it == target) = some tIdx →
      items.findIdx? (fun it => it == A) = some aIdx →
      selectFileRange items sel (some A) cur target false
        = selectFileRange items sel (some target) cur A false := by
    intro items sel cur target A tIdx aIdx ht hA
    rw [selectFileRange_resolved items sel (some A) cur target A ht rfl hA,
      selectFileRange_resolved items sel (some target) cur A target hA rfl ht,
      Nat.min_comm tIdx aIdx, Nat.max_comm tIdx aIdx]
  refine ⟨?_, hsym, ?_, ?_, ?_, ?_⟩
  · intro items sel anchor cur target A tIdx aIdx ht ha hA
    exact ⟨selectFileRange_resolved items sel anchor cur target A ht ha hA,
      hmem items sel anchor cur target A tIdx aIdx ht ha hA⟩
  · intro items sel anchor cur target tIdx ht hnone
    exact selectFileRange_fallback items sel anchor cur target ht hnone
  · intro items sel anchor cur target A tIdx aIdx ht ha hA
    rw [selectFolderRange_eq_selectFileRange]
    exact hmem items sel anchor cur target A tIdx aIdx ht ha hA
  · intro items sel cur target A tIdx aIdx ht hA
    rw [selectFolderRange_eq_selectFileRange]
    exact hsym items sel cur target A tIdx aIdx ht hA
  · intro items sel anchor cur target tIdx ht hnone
    rw [selectFolderRange_eq_selectFileRange]
    exact selectFileRange_fallback items sel anchor cur target ht hnone

/-- C2, witness: on the visible list `["a", "b", "c"]` with anchor `"a"` and
target `"c"`, a non-additive range select discards the old selection `{"z"}`
and yields exactly `{"a", "b", "c"}`. -/
theorem C2_selectRange_witness :
    (([['a'], ['b'], ['c']] : List JStr).findIdx? (fun it => it == ['c']) = some 2
      ∧ ((some ['a'] : Option JStr) <|> none) = some ['a']
      ∧ ([['a'], ['b'], ['c']] : List JStr).findIdx? (fun it => it == ['a']) = some 0)
    ∧ (selectFileRange [['a'], ['b'], ['c']] {['z']} (some ['a']) none ['c'] false
        = ((([['a'], ['b'], ['c']] : List JStr).drop (min 0 2)).take
            (max 0 2 - min 0 2 + 1)).toFinset
      ∧ ∀ x, x ∈ selectFileRange [['a'], ['b'], ['c']] {['z']} (some ['a']) none
            ['c'] false
          ↔ ∃ i, min 0 2 ≤ i ∧ i ≤ max 0 2
              ∧ ([['a'], ['b'], ['c']] : List JStr)[i]? = some x) :=
  ⟨⟨by decide, by decide, by decide⟩,
    C2_selectRange.1 [['a'], ['b'], ['c']] {['z']} (some ['a']) none ['c'] ['a']
      2 0 (by decide) (by decide) (by decide)⟩

/-! ## Rename validation (C4)

`saveFileName` (inline file rename) and `saveFolderName` (inline folder
rename) both trim the input; an empty or unchanged name cancels the edit, a
name containing a separator (and, for folders, other invalid characters or a
reserved device name) produces a local error — in all these cases
`API.renameFile` / `API.renameFolder` is never invoked. -/

/-- `input.value.trim()` — strip leading and trailing whitespace. -/
def jsTrim (s : JStr) : JStr :=
  ((s.dropWhile Char.isWhitespace).reverse.dropWhile Char.isWhitespace).reverse

/-- How a rename attempt resolves before/at the remote-service boundary. -/
inductive RenameOutcome where
  | cancelled
  | localError
  | remoteCall (newName : JStr)
  deriving DecidableEq

/-- The validation prefix of `saveFileName` in the files manager:
`const newName = input.value.trim(); if (!newName || newName === file.name)
cancel; if (newName.includes('/') || newName.includes('\\')) local error;
…` then `API.renameFile(file.path, newName)`. -/
def saveFileNameDecision (inputValue currentName : JStr) : RenameOutcome :=
  let newName := jsTrim inputValue
  if newName.isEmpty || newName == currentName then .cancelled
  else if newName.contains '/' || newName.contains '\\' then .localError
  else .remoteCall newName

/-- The Windows/Unix invalid-character class of `saveFolderName`:
`/[<>:"|?*\x00-\x1f]/`. -/
def isInvalidFolderChar (c : Char) : Bool :=
  c == '<' || c == '>' || c == ':' || c == '"' || c == '|' || c == '?'
    || c == '*' || decide (c.toNat ≤ 0x1f)

/-- The reserved device names checked by `saveFolderName`. -/
def reservedNames : List JStr :=
  ["CON", "PRN", "AUX", "NUL", "COM1", "COM2", "COM3", "COM4",
   "COM5", "COM6", "COM7", "COM8", "COM9", "LPT1", "LPT2",
   "LPT3", "LPT4", "LPT5", "LPT6", "LPT7", "LPT8", "LPT9"].map String.toList

/-- The validation prefix of `saveFolderName` in the tree module: trim;
empty/unchanged cancels; separators or invalid characters give a local
`Invalid name` error; a reserved name (upper-cased comparison) gives a local
`Reserved name` error; only then `API.renameFolder(item.path, newName)`. -/
def saveFolderNameDecision (inputValue currentName : JStr) : RenameOutcome :=
  let newName := jsTrim inputValue
  if newName.isEmpty || newName == currentName then .cancelled
  else if newName.contains '/' || newName.contains '\\'
      || newName.any isInvalidFolderChar then .localError
  else if reservedNames.contains (newName.map Char.toUpper) then .localError
  else .remoteCall newName

/-- C4: a rename attempt whose trimmed name is empty, unchanged, or contains
a path separator resolves locally (cancel or local error) and never reaches
the remote service, for files and folders alike; a folder rename to a
platform-reserved device name (case-insensitive) is likewise rejected
locally. -/
theorem C4_renameValidation (inputValue currentName : JStr) :
    (jsTrim inputValue = [] ∨ jsTrim inputValue = currentName
        ∨ (jsTrim inputValue).contains '/' = true →
      (∀ n, saveFileNameDecision inputValue currentName ≠ .remoteCall n)
      ∧ (∀ n, saveFolderNameDecision inputValue currentName ≠ .remoteCall n))
    ∧ (reservedNames.contains ((jsTrim inputValue).map Char.toUpper) = true →
      ∀ n, saveFolderNameDecision inputValue currentName ≠ .remoteCall n) := by
  constructor
  · intro h
    constructor
    · intro n hc
      unfold saveFileNameDecision at hc
      rcases h with h | h | h
      · rw [if_pos (by simp [h])] at hc
        exact RenameOutcome.noConfusion hc
      · rw [if_pos (by simp [h])] at hc
        exact RenameOutcome.noConfusion hc
      · by_cases h1 : (jsTrim inputValue).isEmpty || jsTrim inputValue == currentName
        · rw [if_pos h1] at hc
          exact RenameOutcome.noConfusion hc
        · rw [if_neg (by simp_all),
            if_pos (by simp; exact Or.inl (List.mem_of_elem_eq_true h))] at hc
          exact RenameOutcome.noConfusion hc
    · intro n hc
      unfold saveFolderNameDecision at hc
      rcases h with h | h | h
      · rw [if_pos (by simp [h])] at hc
        exact RenameOutcome.noConfusion hc
      · rw [if_pos (by simp [h])] at hc
        exact RenameOutcome.noConfusion hc
      · by_cases h1 : (jsTrim inputValue).isEmpty || jsTrim inputValue == currentName
        · rw [if_pos h1] at hc
          exact RenameOutcome.noConfusion hc
        · rw [if_neg (by simp_all),
            if_pos (by simp; exact Or.inl (Or.inl (List.mem_of_elem_eq_true h)))] at hc
          exact RenameOutcome.noConfusion hc
  · intro h n hc
    unfold saveFolderNameDecision at hc
    by_cases h1 : (jsTrim inputValue).isEmpty || jsTrim inputValue == currentName
    · rw [if_pos h1] at hc
      exact RenameOutcome.noConfusion hc
    · rw [if_neg (by simp_all)] at hc
      by_cases h2 : (jsTrim inputValue).contains '/'
          || (jsTrim inputValue).contains '\\'
          || (jsTrim inputValue).any isInvalidFolderChar
      · rw [if_pos h2] at hc
        exact RenameOutcome.noConfusion hc
      · rw [if_neg (by simp_all), if_pos h] at hc
        exact RenameOutcome.noConfusion hc

/-- C4, witness: renaming to `" a/b "` (trimmed `"a/b"`, contains `/`) stays
local for both panes, and the folder rename to `"con"` (reserved, checked
case-insensitively) stays local. -/
theorem C4_renameValidation_witness :
    ((jsTrim " a/b ".toList = [] ∨ jsTrim " a/b ".toList = "x".toList
        ∨ (jsTrim " a/b ".toList).contains '/' = true)
      ∧ (∀ n, saveFileNameDecision " a/b ".toList "x".toList ≠ .remoteCall n)
      ∧ (∀ n, saveFolderNameDecision " a/b ".toList "x".toList ≠ .remoteCall n))
    ∧ (reservedNames.contains ((jsTrim "con".toList).map Char.toUpper) = true
      ∧ ∀ n, saveFolderNameDecision "con".toList "x".toList ≠ .remoteCall n) :=
  ⟨⟨Or.inr (Or.inr (by decide)),
    (C4_renameValidation " a/b ".toList "x".toList).1
      (Or.inr (Or.inr (by decide)))⟩,
    ⟨by decide,
      (C4_renameValidation "con".toList "x".toList).2 (by decide)⟩⟩

/-! ## Bulk operation runner (C5)

`UIUtils.runBulkOperation({ label, items, onItem })`: returns at once on an
empty list; shows `(0, total)` and then `(done, total)` after each completed
item, but only when `total > 1`; awaits `onItem(items[i], i)` strictly in
list order; an exception from `onItem` propagates immediately (the `finally`
only hides the progress bar), so no later item is started and the states
already committed stay committed.  The per-item operation is modelled as a
state transformer that may fail, `op : σ → α → Except ε σ`. -/

structure BulkResult (σ ε α : Type) where
  finalState : σ
  error : Option ε
  progress : List (Nat × Nat)
  attempted : List α
  deriving DecidableEq

/-- The `for` loop of `runBulkOperation`, carrying the loop index `i`; each
success reports `(i + 1, total)` when `total > 1`; a failure stops the loop
with that error. -/
def runBulkGo (op : σ → α → Except ε σ) (total : Nat) :
    σ → Nat → List α → BulkResult σ ε α
  | s, _, [] => ⟨s, none, [], []⟩
  | s, i, x :: xs =>
    match op s x with
    | .error e => ⟨s, some e, [], [x]⟩
    | .ok s2 =>
      let r := runBulkGo op total s2 (i + 1) xs
      ⟨r.finalState, r.error,
        (if total > 1 then [(i + 1, total)] else []) ++ r.progress,
        x :: r.attempted⟩

/-- `runBulkOperation`: empty list returns immediately; otherwise the initial
`(0, total)` report (when `total > 1`) followed by the loop. -/
def runBulkOperation (op : σ → α → Except ε σ) (s : σ) (items : List α) :
    BulkResult σ ε α :=
  if items.length = 0 then ⟨s, none, [], []⟩
  else
    let r := runBulkGo op items.length s 0 items
    ⟨r.finalState, r.error,
      (if items.length > 1 then [(0, items.length)] else []) ++ r.progress,
      r.attempted⟩

theorem runBulkGo_nil (op : σ → α → Except ε σ) (total : Nat) (s : σ) (i : Nat) :
    runBulkGo op total s i [] = ⟨s, none, [], []⟩ := rfl

theorem runBulkGo_cons_error (op : σ → α → Except ε σ) (total : Nat)
    (s : σ) (i : Nat) (x : α) (xs : List α) (e : ε) (h : op s x = .error e) :
    runBulkGo op total s i (x :: xs) = ⟨s, some e, [], [x]⟩ := by
  unfold runBulkGo
  rw [h]

theorem runBulkGo_cons_ok (op : σ → α → Except ε σ) (total : Nat)
    (s : σ) (i : Nat) (x : α) (xs : List α) (s2 : σ) (h : op s x = .ok s2) :
    runBulkGo op total s i (x :: xs)
      = ⟨(runBulkGo op total s2 (i + 1) xs).finalState,
          (runBulkGo op total s2 (i + 1) xs).error,
          (if total > 1 then [(i + 1, total)] else [])
            ++ (runBulkGo op total s2 (i + 1) xs).progress,
          x :: (runBulkGo op total s2 (i + 1) xs).attempted⟩ := by
  conv_lhs => unfold runBulkGo
  rw [h]

theorem foldlM_except_cons_ok {op : σ → α → Except ε σ} {s sF : σ} {x : α}
    {xs : List α} (h : (x :: xs).foldlM op s = Except.ok sF) :
    ∃ s2, op s x = Except.ok s2 ∧ xs.foldlM op s2 = Except.ok sF := by
  cases hox : op s x with
  | error e2 =>
    rw [List.foldlM_cons, hox] at h
    exact absurd h (by simp [Bind.bind, Except.bind])
  | ok s2 =>
    rw [List.foldlM_cons, hox] at h
    refine ⟨s2, rfl, ?_⟩
    simpa [Bind.bind, Except.bind] using h

theorem progress_shift (total : Nat) (i n : Nat) :
    (if total > 1 then [(i + 1, total)] else [])
        ++ (if total > 1 then
            (List.range n).map (fun k => (i + 1 + k + 1, total)) else [])
      = if total > 1 then
          (List.range (n + 1)).map (fun k => (i + k + 1, total)) else [] := by
  by_cases ht : total > 1
  · simp only [if_pos ht, List.range_succ_eq_map, List.map_cons, List.map_map,
      List.singleton_append]
    congr 1
    apply List.map_congr_left
    intro k _
    simp only [Function.comp]
    congr 1
    omega
  · simp [if_neg ht]

theorem runBulkGo_fail (op : σ → α → Except ε σ) (total : Nat) :
    ∀ (good : List α) (s : σ) (i : Nat) (sG : σ) (bad : α) (rest : List α) (e : ε),
    good.foldlM op s = Except.ok sG → op sG bad = Except.error e →
    runBulkGo op total s i (good ++ bad :: rest)
      = ⟨sG, some e,
          if total > 1 then (List.range good.length).map (fun k => (i + k + 1, total))
          else [],
          good ++ [bad]⟩ := by
  intro good
  induction good with
  | nil =>
    intro s i sG bad rest e hgood hbad
    have hs : s = sG := by
      simpa [List.foldlM, pure, Except.pure] using hgood
    subst hs
    rw [List.nil_append, runBulkGo_cons_error op total s i bad rest e hbad]
    simp
  | cons x xs ih =>
    intro s i sG bad rest e hgood hbad
    rcases foldlM_except_cons_ok hgood with ⟨s2, hox, hxs⟩
    rw [List.cons_append, runBulkGo_cons_ok op total s i x _ s2 hox,
      ih s2 (i + 1) sG bad rest e hxs hbad]
    simp only [List.length_cons, List.cons_append]
    rw [progress_shift total i xs.length]

theorem runBulkGo_allOk (op : σ → α → Except ε σ) (total : Nat) :
    ∀ (items : List α) (s : σ) (i : Nat) (sF : σ),
    items.foldlM op s = Except.ok sF →
    runBulkGo op total s i items
      = ⟨sF, none,
          if total > 1 then (List.range items.length).map (fun k => (i + k + 1, total))
          else [],
          items⟩ := by
  intro items
  induction items with
  | nil =>
    intro s i sF hgood
    have hs : s = sF := by
      simpa [List.foldlM, pure, Except.pure] using hgood
    subst hs
    rw [runBulkGo_nil]
    simp
  | cons x xs ih =>
    intro s i sF hgood
    rcases foldlM_except_cons_ok hgood with ⟨s2, hox, hxs⟩
    rw [runBulkGo_cons_ok op total s i x xs s2 hox, ih s2 (i + 1) sF hxs]
    simp only [List.length_cons]
    rw [progress_shift total i xs.length]

/-- Witness model of `API.deleteFile` as used by `deleteSelectedFiles`: the
remote file set is a list of paths, deleting removes the path, and paths in
the failure oracle make the call reject. -/
def deleteFileOp (failures : List JStr) (files : List JStr) (p : JStr) :
    Except JStr (List JStr) :=
  if p ∈ failures then Except.error p else Except.ok (files.erase p)

/-- C5: the bulk runner executes the per-item operation strictly
sequentially in list order: when the items split as `good ++ bad :: rest`
with every operation on `good` succeeding and the one on `bad` failing, the
final state is exactly the state after the committed prefix (no rollback),
the single surfaced error is the failing item's error, the attempted items
are exactly `good ++ [bad]` (nothing after the failure is started), and
progress `(done, total)` reports appear only when `total > 1`; when every
item succeeds, all items run in order and no error is surfaced. -/
theorem bulk_progress_cons (L n : Nat) :
    (if L > 1 then [(0, L)] else [])
        ++ (if L > 1 then (List.range n).map (fun k => (0 + k + 1, L)) else [])
      = if L > 1 then (0, L) :: (List.range n).map (fun k => (k + 1, L)) else [] := by
  by_cases ht : L > 1
  · simp only [if_pos ht, List.singleton_append]
    congr 1
    apply List.map_congr_left
    intro k _
    congr 1
    omega
  · simp [if_neg ht]

theorem bulk_progress_total (L n : Nat) (p : Nat × Nat)
    (hp : p ∈ (if L > 1 then (0, L) :: (List.range n).map (fun k => (k + 1, L))
      else [])) : p.2 = L := by
  by_cases ht : L > 1
  · rw [if_pos ht] at hp
    rcases List.mem_cons.mp hp with h1 | h1
    · rw [h1]
    · rcases List.mem_map.mp h1 with ⟨k, _, hk⟩
      rw [← hk]
  · rw [if_neg ht] at hp
    cases hp

/-- C5: the bulk runner executes the per-item operation strictly
sequentially in list order: when the items split as `good ++ bad :: rest`
with every operation on `good` succeeding and the one on `bad` failing, the
final state is exactly the state after the committed prefix (no rollback),
the single surfaced error is the failing item's error, the attempted items
are exactly `good ++ [bad]` (nothing after the failure is started), and
progress `(done, total)` reports appear only when `total > 1`; when every
item succeeds, all items run in order and no error is surfaced. -/
theorem C5_bulkRunner (op : σ → α → Except ε σ) (s0 : σ)
    (good : List α) (bad : α) (rest : List α) (sG : σ) (e : ε)
    (hgood : good.foldlM op s0 = Except.ok sG)
    (hbad : op sG bad = Except.error e) :
    ((runBulkOperation op s0 (good ++ bad :: rest)).finalState = sG
      ∧ (runBulkOperation op s0 (good ++ bad :: rest)).error = some e
      ∧ (runBulkOperation op s0 (good ++ bad :: rest)).attempted = good ++ [bad]
      ∧ (runBulkOperation op s0 (good ++ bad :: rest)).progress
          = (if (good ++ bad :: rest).length > 1 then
              (0, (good ++ bad :: rest).length)
                :: (List.range good.length).map
                  (fun k => (k + 1, (good ++ bad :: rest).length))
            else [])
      ∧ (∀ p ∈ (runBulkOperation op s0 (good ++ bad :: rest)).progress,
          p.2 = (good ++ bad :: rest).length))
    ∧ (∀ (allgood : List α) (sF : σ), allgood.foldlM op s0 = Except.ok sF →
        (runBulkOperation op s0 allgood).attempted = allgood
        ∧ (runBulkOperation op s0 allgood).finalState = sF
        ∧ (runBulkOperation op s0 allgood).error = none) := by
  have hlen : (good ++ bad :: rest).length ≠ 0 := by simp
  have hrun := runBulkGo_fail op (good ++ bad :: rest).length good s0 0 sG bad rest e
    hgood hbad
  have hprog : (runBulkOperation op s0 (good ++ bad :: rest)).progress
      = (if (good ++ bad :: rest).length > 1 then
          (0, (good ++ bad :: rest).length)
            :: (List.range good.length).map
              (fun k => (k + 1, (good ++ bad :: rest).length))
        else []) := by
    unfold runBulkOperation
    rw [if_neg hlen]
    show (if (good ++ bad :: rest).length > 1
        then [(0, (good ++ bad :: rest).length)] else [])
        ++ (runBulkGo op (good ++ bad :: rest).length s0 0 (good ++ bad :: rest)).progress
      = _
    rw [hrun]
    exact bulk_progress_cons (good ++ bad :: rest).length good.length
  constructor
  · refine ⟨?_, ?_, ?_, hprog, ?_⟩
    · unfold runBulkOperation
      rw [if_neg hlen]
      show (runBulkGo op (good ++ bad :: rest).length s0 0 (good ++ bad :: rest)).finalState = sG
      rw [hrun]
    · unfold runBulkOperation
      rw [if_neg hlen]
      show (runBulkGo op (good ++ bad :: rest).length s0 0 (good ++ bad :: rest)).error = some e
      rw [hrun]
    · unfold runBulkOperation
      rw [if_neg hlen]
      show (runBulkGo op (good ++ bad :: rest).length s0 0 (good ++ bad :: rest)).attempted
        = good ++ [bad]
      rw [hrun]
    · intro p hp
      rw [hprog] at hp
      exact bulk_progress_total _ _ p hp
  · intro allgood sF hall
    cases allgood with
    | nil =>
      have hs : s0 = sF := by
        simpa [List.foldlM, pure, Except.pure] using hall
      subst hs
      exact ⟨rfl, rfl, rfl⟩
    | cons x xs =>
      have hl : (x :: xs).length ≠ 0 := by simp
      have hok := runBulkGo_allOk op (x :: xs).length (x :: xs) s0 0 sF hall
      refine ⟨?_, ?_, ?_⟩
      · unfold runBulkOperation
        rw [if_neg hl]
        show (runBulkGo op (x :: xs).length s0 0 (x :: xs)).attempted = x :: xs
        rw [hok]
      · unfold runBulkOperation
        rw [if_neg hl]
        show (runBulkGo op (x :: xs).length s0 0 (x :: xs)).finalState = sF
        rw [hok]
      · unfold runBulkOperation
        rw [if_neg hl]
        show (runBulkGo op (x :: xs).length s0 0 (x :: xs)).error = none
        rw [hok]

/-- C5, witness: bulk-deleting files `[a, b, c]` where deleting `b` fails
leaves `a` removed from the model, `b` and `c` untouched, surfaces the single
error of `b`, never starts `c`, and reports progress `(0,3), (1,3)`. -/
theorem C5_bulkRunner_witness :
    (([['a']] : List JStr).foldlM (deleteFileOp [['b']]) [['a'], ['b'], ['c']]
        = Except.ok [['b'], ['c']]
      ∧ deleteFileOp [['b']] [['b'], ['c']] ['b'] = Except.error ['b'])
    ∧ ((runBulkOperation (deleteFileOp [['b']]) [['a'], ['b'], ['c']]
          ([['a']] ++ ['b'] :: [['c']])).finalState = [['b'], ['c']]
      ∧ (runBulkOperation (deleteFileOp [['b']]) [['a'], ['b'], ['c']]
          ([['a']] ++ ['b'] :: [['c']])).error = some ['b']
      ∧ (runBulkOperation (deleteFileOp [['b']]) [['a'], ['b'], ['c']]
          ([['a']] ++ ['b'] :: [['c']])).attempted = [['a']] ++ [['b']]
      ∧ (runBulkOperation (deleteFileOp [['b']]) [['a'], ['b'], ['c']]
          ([['a']] ++ ['b'] :: [['c']])).progress
          = (if (([['a']] : List JStr) ++ ['b'] :: [['c']]).length > 1 then
              (0, (([['a']] : List JStr) ++ ['b'] :: [['c']]).length)
                :: (List.range ([['a']] : List JStr).length).map
                  (fun k => (k + 1, (([['a']] : List JStr) ++ ['b'] :: [['c']]).length))
            else [])
      ∧ (∀ p ∈ (runBulkOperation (deleteFileOp [['b']]) [['a'], ['b'], ['c']]
          ([['a']] ++ ['b'] :: [['c']])).progress,
          p.2 = (([['a']] : List JStr) ++ ['b'] :: [['c']]).length)) :=
  ⟨⟨rfl, rfl⟩,
    (C5_bulkRunner (deleteFileOp [['b']]) [['a'], ['b'], ['c']] [['a']] ['b'] [['c']]
      [['b'], ['c']] ['b'] rfl rfl).1⟩

/-! ## Bulk folder delete roots (C6)

`deleteSelectedFolders`:
`const roots = selectedPaths.filter(p => !selectedPaths.some(other =>
other !== p && p.startsWith(other + '/')))`; one `API.deleteFolder(path,
false)` is then issued per element of `roots`, in order, by the bulk
runner. -/

def rootsOf (selectedPaths : List JStr) : List JStr :=
  selectedPaths.filter fun p =>
    !(selectedPaths.any fun other => other != p && startsDescB other p)

theorem mem_rootsOf {selected : List JStr} {p : JStr} :
    p ∈ rootsOf selected
      ↔ p ∈ selected ∧ ∀ q ∈ selected, q ≠ p → startsDescB q p = false := by
  unfold rootsOf
  rw [List.mem_filter]
  constructor
  · rintro ⟨hmem, hf⟩
    refine ⟨hmem, ?_⟩
    intro q hq hqp
    have hany : (selected.any fun other => other != p && startsDescB other p)
        = false := by
      cases hh : selected.any fun other => other != p && startsDescB other p
      · rfl
      · rw [hh] at hf
        exact absurd hf (by decide)
    have := List.any_eq_false.mp hany q hq
    cases hd : startsDescB q p
    · rfl
    · exfalso
      apply this
      rw [hd]
      simp [hqp]
  · rintro ⟨hmem, hall⟩
    refine ⟨hmem, ?_⟩
    have hany : (selected.any fun other => other != p && startsDescB other p)
        = false := by
      apply List.any_eq_false.mpr
      intro q hq
      by_cases hqp : q = p
      · subst hqp
        simp
      · rw [hall q hq hqp]
        simp
    rw [hany]
    rfl

/-- C6, counterexample to the claim as stated: with selection
`{"c", "c/a", "c/a/b"}`, `A = "c/a"` and `B = "c/a/b"` are both selected
with `B` strictly under `A`, yet zero delete requests are issued for `A`
(only `"c"` is deleted), not exactly one. -/
theorem C6_counterexample :
    rootsOf [['c'], ['c', '/', 'a'], ['c', '/', 'a', '/', 'b']] = [['c']]
      ∧ (['c', '/', 'a'] : JStr) ∈
          [['c'], ['c', '/', 'a'], ['c', '/', 'a', '/', 'b']]
      ∧ (['c', '/', 'a', '/', 'b'] : JStr) ∈
          [['c'], ['c', '/', 'a'], ['c', '/', 'a', '/', 'b']]
      ∧ startsDescB ['c', '/', 'a'] ['c', '/', 'a', '/', 'b'] = true
      ∧ (['c', '/', 'a'] : JStr) ∉
          rootsOf [['c'], ['c', '/', 'a'], ['c', '/', 'a', '/', 'b']] := by decide

/-- C6 (amended): delete requests are issued exactly for the selected paths
that are not strict descendants of another selected path; in particular, if
`A` and `B` are selected with `B` strictly under `A`, no request is issued
for `B`, and exactly one request is issued for `A` provided `A` itself is
not a strict descendant of another selected path. -/
theorem C6_deleteRoots (selected : List JStr) (hnd : selected.Nodup) :
    (∀ p, p ∈ rootsOf selected
      ↔ p ∈ selected ∧ ∀ q ∈ selected, q ≠ p → startsDescB q p = false)
    ∧ (rootsOf selected).Nodup
    ∧ (∀ A, A ∈ selected → (∀ q ∈ selected, q ≠ A → startsDescB q A = false) →
        A ∈ rootsOf selected)
    ∧ (∀ A B, A ∈ selected → B ∈ selected → startsDescB A B = true →
        B ∉ rootsOf selected) := by
  refine ⟨fun p => mem_rootsOf, List.Nodup.filter _ hnd, ?_, ?_⟩
  · intro A hA hroot
    exact mem_rootsOf.mpr ⟨hA, hroot⟩
  · intro A B hA hB hdesc hc
    rcases mem_rootsOf.mp hc with ⟨_, hall⟩
    have hne : A ≠ B := startsDescB_ne hdesc
    rw [hall A hA hne] at hdesc
    exact Bool.false_ne_true hdesc

/-- C6, witness: for the selection `{"a", "a/b"}`, exactly one delete is
issued for `"a"` and none for `"a/b"`. -/
theorem C6_deleteRoots_witness :
    ([['a'], ['a', '/', 'b']] : List JStr).Nodup
    ∧ ((['a'] : JStr) ∈ [['a'], ['a', '/', 'b']]
      ∧ (∀ q ∈ ([['a'], ['a', '/', 'b']] : List JStr), q ≠ ['a'] →
          startsDescB q ['a'] = false)
      ∧ (['a'] : JStr) ∈ rootsOf [['a'], ['a', '/', 'b']]
      ∧ (rootsOf [['a'], ['a', '/', 'b']]).Nodup)
    ∧ (['a', '/', 'b'] : JStr) ∉ rootsOf [['a'], ['a', '/', 'b']] :=
  ⟨by decide,
    ⟨by decide, by decide,
      (C6_deleteRoots [['a'], ['a', '/', 'b']] (by decide)).2.2.1 ['a']
        (by decide) (by decide),
      (C6_deleteRoots [['a'], ['a', '/', 'b']] (by decide)).2.1⟩,
    (C6_deleteRoots [['a'], ['a', '/', 'b']] (by decide)).2.2.2 ['a'] ['a', '/', 'b']
      (by decide) (by decide) (by decide)⟩

/-! ## Collapse-on-switch (C7)

The plain-click branch of `content.onclick` in `createTreeItem`: after
clearing multi-selection, if there is a previously selected tree item other
than the clicked one, and the clicked folder is not a descendant of it
(`item.path.startsWith(previousPath + '/')` false), and the previous path is
expanded, the previous folder is collapsed (removed from
`State.expandedFolders`); then the clicked folder's own expansion is
toggled.  The DOM `expanded` class mirrors membership of
`State.expandedFolders`, which is how the toggle's
`children.classList.contains('expanded')` test is modelled. -/

def collapseOnSwitch (expanded : Finset JStr) (previousPath : Option JStr)
    (itemPath : JStr) : Finset JStr :=
  match previousPath with
  | none => expanded
  | some pp =>
    if pp ≠ itemPath ∧ startsDescB pp itemPath = false ∧ pp ∈ expanded then
      expanded.erase pp
    else expanded

def expandToggle (expanded : Finset JStr) (itemPath : JStr) : Finset JStr :=
  if itemPath ∈ expanded then expanded.erase itemPath
  else insert itemPath expanded

def plainFolderClick (expanded : Finset JStr) (previousPath : Option JStr)
    (itemPath : JStr) : Finset JStr :=
  expandToggle (collapseOnSwitch expanded previousPath itemPath) itemPath

/-- C7: a plain click on a folder that is neither an ancestor nor a
descendant of the previously selected, expanded folder `P` collapses `P`;
a plain click on a descendant of `P` leaves `P` expanded. -/
theorem collapseOnSwitch_some (expanded : Finset JStr) (pp itemPath : JStr) :
    collapseOnSwitch expanded (some pp) itemPath
      = if pp ≠ itemPath ∧ startsDescB pp itemPath = false ∧ pp ∈ expanded then
          expanded.erase pp
        else expanded := rfl

theorem C7_collapseOnSwitch (expanded : Finset JStr) (P itemPath : JStr)
    (hPexp : P ∈ expanded) :
    (startsDescB P itemPath = false → startsDescB itemPath P = false →
      P ≠ itemPath → P ∉ plainFolderClick expanded (some P) itemPath)
    ∧ (startsDescB P itemPath = true →
      P ∈ plainFolderClick expanded (some P) itemPath) := by
  constructor
  · intro hd1 hd2 hne
    unfold plainFolderClick
    rw [collapseOnSwitch_some, if_pos ⟨hne, hd1, hPexp⟩]
    unfold expandToggle
    split
    · intro hc
      exact Finset.not_mem_erase P expanded (Finset.mem_of_mem_erase hc)
    · intro hc
      rcases Finset.mem_insert.mp hc with h1 | h1
      · exact hne h1
      · exact Finset.not_mem_erase P expanded h1
  · intro hd
    have hne : P ≠ itemPath := startsDescB_ne hd
    unfold plainFolderClick
    rw [collapseOnSwitch_some,
      if_neg (by rintro ⟨_, h2, _⟩; rw [hd] at h2; cases h2)]
    unfold expandToggle
    split
    · exact Finset.mem_erase.mpr ⟨hne, hPexp⟩
    · exact Finset.mem_insert_of_mem hPexp

/-- C7, witness: with `A` expanded and previously selected, clicking sibling
`B` collapses `A`; clicking `A/sub` keeps `A` expanded. -/
theorem C7_collapseOnSwitch_witness :
    ((['a'] : JStr) ∈ ({['a']} : Finset JStr)
      ∧ startsDescB ['a'] ['b'] = false ∧ startsDescB ['b'] ['a'] = false
      ∧ (['a'] : JStr) ≠ ['b']
      ∧ startsDescB ['a'] ['a', '/', 's'] = true)
    ∧ (['a'] : JStr) ∉ plainFolderClick {['a']} (some ['a']) ['b']
    ∧ (['a'] : JStr) ∈ plainFolderClick {['a']} (some ['a']) ['a', '/', 's'] :=
  ⟨⟨by decide, by decide, by decide, by decide, by decide⟩,
    (C7_collapseOnSwitch {['a']} ['a'] ['b'] (by decide)).1
      (by decide) (by decide) (by decide),
    (C7_collapseOnSwitch {['a']} ['a'] ['a', '/', 's'] (by decide)).2 (by decide)⟩

/-! ## Inline-rename editing state (C9)

The file pane guards `startFileRename` with its own
`this.editingFileElement`; the folder pane guards `startFolderRename` with
`State.editingFolder` and `State.isRenamingFolder`.  Neither consults the
other pane's flag.  Edited nodes are identified by their paths. -/

structure EditState where
  editingFile : Option JStr
  editingFolder : Option JStr
  isRenamingFolder : Bool
  deriving DecidableEq

/-- `startFileRename(listItem, …)`:
`if (this.editingFileElement && this.editingFileElement !== listItem)
return; if (this.editingFileElement === listItem) return;` then
`this.editingFileElement = listItem`. -/
def startFileRename (s : EditState) (node : JStr) : EditState :=
  if s.editingFile.isSome ∧ s.editingFile ≠ some node then s
  else if s.editingFile = some node then s
  else { s with editingFile := some node }

/-- `startFolderRename(folderElement, item)`:
`if (State.editingFolder && State.editingFolder !== folderElement) return;
if (State.isRenamingFolder) return; State.isRenamingFolder = true; …
State.editingFolder = folderElement`. -/
def startFolderRename (s : EditState) (node : JStr) : EditState :=
  if s.editingFolder.isSome ∧ s.editingFolder ≠ some node then s
  else if s.isRenamingFolder then s
  else { s with editingFolder := some node, isRenamingFolder := true }

/-- Number of nodes currently in inline-rename mode across both panes. -/
def editingCount (s : EditState) : Nat :=
  (if s.editingFile.isSome then 1 else 0)
    + (if s.editingFolder.isSome then 1 else 0)

/-- C9, counterexample to the claim as stated: while file `"f"` is in
inline-rename mode, starting a folder rename on `"d"` is not a no-op — it
succeeds, and two nodes are then in inline-rename mode at once. -/
theorem C9_counterexample :
    startFolderRename ⟨some ['f'], none, false⟩ ['d']
        = ⟨some ['f'], some ['d'], true⟩
      ∧ startFolderRename ⟨some ['f'], none, false⟩ ['d']
        ≠ ⟨some ['f'], none, false⟩
      ∧ editingCount (startFolderRename ⟨some ['f'], none, false⟩ ['d']) = 2 := by
  decide

/-- C9 (amended): mutual exclusion holds per pane, not process-wide: while a
file item is being edited, starting a rename on any file item is a no-op;
while a folder is being edited, starting a rename on another folder (or
while a folder rename is already running) is a no-op; but a file edit and a
folder edit can be active simultaneously because neither pane consults the
other pane's editing flag. -/
theorem C9_editExclusivity (s : EditState) (node : JStr) :
    (∀ other, s.editingFile = some other → startFileRename s node = s)
    ∧ (∀ other, s.editingFolder = some other → other ≠ node →
        startFolderRename s node = s)
    ∧ (s.isRenamingFolder = true → startFolderRename s node = s)
    ∧ (s.editingFile = none →
        (startFileRename s node).editingFile = some node)
    ∧ (s.editingFolder = none → s.isRenamingFolder = false →
        (startFolderRename s node).editingFolder = some node
        ∧ (startFolderRename s node).isRenamingFolder = true) := by
  refine ⟨?_, ?_, ?_, ?_, ?_⟩
  · intro other hother
    unfold startFileRename
    by_cases hsame : s.editingFile = some node
    · rw [if_neg (fun hc => hc.2 hsame), if_pos hsame]
    · rw [if_pos ⟨by rw [hother]; rfl, hsame⟩]
  · intro other hother hne
    unfold startFolderRename
    rw [if_pos ⟨by rw [hother]; rfl, by rw [hother]; simp [hne]⟩]
  · intro hren
    unfold startFolderRename
    split
    · rfl
    · simp [hren]
  · intro hnone
    unfold startFileRename
    rw [if_neg (fun hc => by rw [hnone] at hc; exact absurd hc.1 (by decide)),
      if_neg (by rw [hnone]; simp)]
  · intro hnone hren
    unfold startFolderRename
    rw [if_neg (fun hc => by rw [hnone] at hc; exact absurd hc.1 (by decide)),
      if_neg (by rw [hren]; simp)]
    exact ⟨rfl, rfl⟩

/-- C9, witness: the per-pane no-ops and transitions at concrete states. -/
theorem C9_editExclusivity_witness :
    ((⟨some ['f'], none, false⟩ : EditState).editingFile = some ['f']
      ∧ startFileRename ⟨some ['f'], none, false⟩ ['g']
        = ⟨some ['f'], none, false⟩)
    ∧ ((⟨none, some ['d'], true⟩ : EditState).editingFolder = some ['d']
      ∧ (['d'] : JStr) ≠ ['e']
      ∧ startFolderRename ⟨none, some ['d'], true⟩ ['e']
        = ⟨none, some ['d'], true⟩)
    ∧ (startFileRename ⟨none, none, false⟩ ['g']).editingFile = some ['g'] :=
  ⟨⟨by decide,
      (C9_editExclusivity ⟨some ['f'], none, false⟩ ['g']).1 ['f'] (by decide)⟩,
    ⟨by decide, by decide,
      (C9_editExclusivity ⟨none, some ['d'], true⟩ ['e']).2.1 ['d']
        (by decide) (by decide)⟩,
    (C9_editExclusivity ⟨none, none, false⟩ ['g']).2.2.2.1 (by decide)⟩

/-! ## Filter + sort rebuild (C8)

File pane: `renderFileList` takes `State.filesFilter.toLowerCase().trim()`,
keeps the files whose lowercased name `includes` it when it is nonempty, and
passes the result to `sortFiles`, whose comparator switches on
`State.filesSort.method` (name / date / type / size) and direction and
returns `aVal > bVal ? 1 : -1` (ascending) or `aVal < bVal ? 1 : -1`
(descending).  Folder pane: `buildTreeFromData` / `rebuildChildren` run
`filterTreeItems` (no trim) then `sortItems`, whose comparator is
`localeCompare` on lowercased names (modelled as code-point order) or a
numeric difference, negated for descending, and the render loop then keeps
only `item.type === 'folder'` nodes.  `Array.prototype.sort` (stable per
ECMAScript) is modelled as the stable insertion sort with respect to
`cmp a b ≤ 0`. -/

structure FileItem where
  name : JStr
  date : Option Int
  size : Option Int
  deriving DecidableEq

inductive FilesSortMethod where
  | name | date | type | size
  deriving DecidableEq

inductive SortDirection where
  | asc | desc
  deriving DecidableEq

def toLowerL (s : JStr) : JStr := s.map Char.toLower

/-- `hay.includes(needle)` — contiguous-substring test. -/
def jsIncludes (hay needle : JStr) : Bool := decide (needle <:+: hay)

/-- JS `aVal > bVal` on strings: code-point lexicographic comparison. -/
def jsStrGt (a b : JStr) : Bool := decide (b < a)

/-- JS `aVal < bVal` on strings. -/
def jsStrLt (a b : JStr) : Bool := decide (a < b)

/-- `name.split('.').pop().toLowerCase()`. -/
def extOf (n : JStr) : JStr := toLowerL ((n.splitOn '.').getLastD [])

/-- `aVal > bVal` for the file comparator's selected sort key
(`a.date || 0`, `a.size || 0` for the numeric placeholders). -/
def filesGtB (m : FilesSortMethod) (a b : FileItem) : Bool :=
  match m with
  | .name => jsStrGt (toLowerL a.name) (toLowerL b.name)
  | .date => decide (a.date.getD 0 > b.date.getD 0)
  | .type => jsStrGt (extOf a.name) (extOf b.name)
  | .size => decide (a.size.getD 0 > b.size.getD 0)

/-- `aVal < bVal` for the file comparator's selected sort key. -/
def filesLtB (m : FilesSortMethod) (a b : FileItem) : Bool :=
  match m with
  | .name => jsStrLt (toLowerL a.name) (toLowerL b.name)
  | .date => decide (a.date.getD 0 < b.date.getD 0)
  | .type => jsStrLt (extOf a.name) (extOf b.name)
  | .size => decide (a.size.getD 0 < b.size.getD 0)

/-- The `sortFiles` comparator: ascending `aVal > bVal ? 1 : -1`,
descending `aVal < bVal ? 1 : -1` (it never returns 0). -/
def sortFilesCmp (m : FilesSortMethod) (dir : SortDirection)
    (a b : FileItem) : Int :=
  match dir with
  | .asc => if filesGtB m a b then 1 else -1
  | .desc => if filesLtB m a b then 1 else -1

/-- `[...files].sort(cmp)`, modelled as the stable sort that keeps the
earlier element first whenever the comparator is non-positive. -/
def sortFiles (m : FilesSortMethod) (dir : SortDirection)
    (files : List FileItem) : List FileItem :=
  List.insertionSort (fun a b => sortFilesCmp m dir a b ≤ 0) files

/-- The filter step of `renderFileList`: lowercase and trim the filter, and
keep the files whose lowercased name includes it when it is nonempty. -/
def filterFiles (files : List FileItem) (filesFilter : JStr) : List FileItem :=
  let filterValue := jsTrim (toLowerL filesFilter)
  if 0 < filterValue.length then
    files.filter fun f => jsIncludes (toLowerL f.name) filterValue
  else files

/-- The visible file list rebuilt by `renderFileList`: filter, then sort. -/
def renderFileListModel (currentFiles : List FileItem) (filesFilter : JStr)
    (m : FilesSortMethod) (dir : SortDirection) : List FileItem :=
  sortFiles m dir (filterFiles currentFiles filesFilter)

inductive ItemType where
  | folder | file
  deriving DecidableEq

structure FolderItem where
  name : JStr
  created : Option Int
  size : Option Int
  type : ItemType
  deriving DecidableEq

inductive FoldersSortMethod where
  | name | date | size
  deriving DecidableEq

/-- `filterTreeItems(items, filterText)`: no-op on an empty filter, else a
case-insensitive substring filter on the (untrimmed) filter text. -/
def filterTreeItems (items : List FolderItem) (filterText : JStr) :
    List FolderItem :=
  if filterText.isEmpty then items
  else items.filter fun it => jsIncludes (toLowerL it.name) (toLowerL filterText)

/-- `a.localeCompare(b)` modelled as code-point comparison returning the
sign. -/
def localeCompareInt (a b : JStr) : Int :=
  if a < b then -1 else if b < a then 1 else 0

/-- The `comparison` variable of the `sortItems` comparator:
`localeCompare` of lowercased names, or the numeric difference of
`created || 0` / `size || 0`. -/
def foldersComparison (m : FoldersSortMethod) (a b : FolderItem) : Int :=
  match m with
  | .name => localeCompareInt (toLowerL a.name) (toLowerL b.name)
  | .date => a.created.getD 0 - b.created.getD 0
  | .size => a.size.getD 0 - b.size.getD 0

/-- The `sortItems` comparator:
`State.foldersSort.direction === 'asc' ? comparison : -comparison`. -/
def sortItemsCmp (m : FoldersSortMethod) (dir : SortDirection)
    (a b : FolderItem) : Int :=
  match dir with
  | .asc => foldersComparison m a b
  | .desc => -foldersComparison m a b

/-- `items.sort(cmp)` of the tree module (value level; the in-place aspect
is modelled separately for C10). -/
def sortItems (m : FoldersSortMethod) (dir : SortDirection)
    (items : List FolderItem) : List FolderItem :=
  List.insertionSort (fun a b => sortItemsCmp m dir a b ≤ 0) items

/-- The visible folder nodes rebuilt by `buildTreeFromData` /
`rebuildChildren` for one cached list: filter by name, sort, then the render
loop keeps only `item.type === 'folder'` entries. -/
def buildVisibleFolders (cache : List FolderItem) (filterText : JStr)
    (m : FoldersSortMethod) (dir : SortDirection) : List FolderItem :=
  (sortItems m dir (filterTreeItems cache filterText)).filter
    fun it => it.type == ItemType.folder

theorem ifcmp_le_iff (g : Bool) :
    ((if g = true then (1 : Int) else -1) ≤ 0) ↔ g = false := by
  cases g <;> simp

theorem filesLtB_flip (m : FilesSortMethod) (a b : FileItem) :
    filesLtB m a b = filesGtB m b a := by
  cases m <;> rfl

theorem filesGtB_false_trans (m : FilesSortMethod) (a b c : FileItem)
    (hab : filesGtB m a b = false) (hbc : filesGtB m b c = false) :
    filesGtB m a c = false := by
  cases m <;>
    (simp only [filesGtB, jsStrGt, gt_iff_lt, decide_eq_false_iff_not, not_lt]
      at hab hbc ⊢
     exact le_trans hab hbc)

theorem filesGtB_false_total (m : FilesSortMethod) (a b : FileItem) :
    filesGtB m a b = false ∨ filesGtB m b a = false := by
  cases m <;>
    (simp only [filesGtB, jsStrGt, gt_iff_lt, decide_eq_false_iff_not, not_lt]
     exact le_total _ _)

theorem sortFilesCmp_le_trans (m : FilesSortMethod) (dir : SortDirection)
    (a b c : FileItem)
    (hab : sortFilesCmp m dir a b ≤ 0) (hbc : sortFilesCmp m dir b c ≤ 0) :
    sortFilesCmp m dir a c ≤ 0 := by
  cases dir with
  | asc =>
    simp only [sortFilesCmp] at hab hbc ⊢
    rw [ifcmp_le_iff] at hab hbc ⊢
    exact filesGtB_false_trans m a b c hab hbc
  | desc =>
    simp only [sortFilesCmp] at hab hbc ⊢
    rw [ifcmp_le_iff, filesLtB_flip] at hab hbc ⊢
    exact filesGtB_false_trans m c b a hbc hab

theorem sortFilesCmp_le_total (m : FilesSortMethod) (dir : SortDirection)
    (a b : FileItem) :
    sortFilesCmp m dir a b ≤ 0 ∨ sortFilesCmp m dir b a ≤ 0 := by
  cases dir with
  | asc =>
    simp only [sortFilesCmp]
    rw [ifcmp_le_iff, ifcmp_le_iff]
    exact filesGtB_false_total m a b
  | desc =>
    simp only [sortFilesCmp]
    rw [ifcmp_le_iff, ifcmp_le_iff, filesLtB_flip, filesLtB_flip]
    exact (filesGtB_false_total m b a)

theorem localeCompareInt_le_iff (a b : JStr) :
    localeCompareInt a b ≤ 0 ↔ a ≤ b := by
  unfold localeCompareInt
  rcases lt_trichotomy a b with h | h | h
  · rw [if_pos h]
    simp [le_of_lt h]
  · subst h
    rw [if_neg (lt_irrefl a), if_neg (lt_irrefl a)]
    simp
  · rw [if_neg (lt_asymm h), if_pos h]
    constructor
    · intro hc
      exact absurd hc (by decide)
    · intro hc
      exact absurd h (not_lt.mpr hc)

theorem foldersComparison_flip (m : FoldersSortMethod) (a b : FolderItem) :
    foldersComparison m b a = -foldersComparison m a b := by
  cases m with
  | name =>
    simp only [foldersComparison]
    unfold localeCompareInt
    rcases lt_trichotomy (toLowerL a.name) (toLowerL b.name) with h | h | h
    · rw [if_pos h, if_neg (lt_asymm h), if_pos h]
      decide
    · rw [h, if_neg (lt_irrefl _), if_neg (lt_irrefl _)]
      decide
    · rw [if_pos h, if_neg (lt_asymm h), if_pos h]
  | date =>
    simp only [foldersComparison]
    omega
  | size =>
    simp only [foldersComparison]
    omega

theorem foldersComparison_le_trans (m : FoldersSortMethod) (a b c : FolderItem)
    (hab : foldersComparison m a b ≤ 0) (hbc : foldersComparison m b c ≤ 0) :
    foldersComparison m a c ≤ 0 := by
  cases m with
  | name =>
    simp only [foldersComparison, localeCompareInt_le_iff] at hab hbc ⊢
    exact le_trans hab hbc
  | date =>
    simp only [foldersComparison] at hab hbc ⊢
    omega
  | size =>
    simp only [foldersComparison] at hab hbc ⊢
    omega

theorem foldersComparison_le_total (m : FoldersSortMethod) (a b : FolderItem) :
    foldersComparison m a b ≤ 0 ∨ foldersComparison m b a ≤ 0 := by
  cases m with
  | name =>
    simp only [foldersComparison, localeCompareInt_le_iff]
    exact le_total _ _
  | date =>
    simp only [foldersComparison]
    omega
  | size =>
    simp only [foldersComparison]
    omega

theorem sortItemsCmp_le_trans (m : FoldersSortMethod) (dir : SortDirection)
    (a b c : FolderItem)
    (hab : sortItemsCmp m dir a b ≤ 0) (hbc : sortItemsCmp m dir b c ≤ 0) :
    sortItemsCmp m dir a c ≤ 0 := by
  cases dir with
  | asc => exact foldersComparison_le_trans m a b c hab hbc
  | desc =>
    simp only [sortItemsCmp] at hab hbc ⊢
    rw [← foldersComparison_flip] at hab hbc ⊢
    exact foldersComparison_le_trans m c b a hbc hab

theorem sortItemsCmp_le_total (m : FoldersSortMethod) (dir : SortDirection)
    (a b : FolderItem) :
    sortItemsCmp m dir a b ≤ 0 ∨ sortItemsCmp m dir b a ≤ 0 := by
  cases dir with
  | asc => exact foldersComparison_le_total m a b
  | desc =>
    simp only [sortItemsCmp]
    rw [← foldersComparison_flip, ← foldersComparison_flip]
    exact foldersComparison_le_total m b a

theorem mem_filterFiles (files : List FileItem) (filesFilter : JStr)
    (x : FileItem) :
    x ∈ filterFiles files filesFilter
      ↔ x ∈ files ∧ (0 < (jsTrim (toLowerL filesFilter)).length →
          jsIncludes (toLowerL x.name) (jsTrim (toLowerL filesFilter)) = true) := by
  simp only [filterFiles]
  by_cases h : 0 < (jsTrim (toLowerL filesFilter)).length
  · rw [if_pos h, List.mem_filter]
    simp [h]
  · rw [if_neg h]
    simp [h]

theorem mem_filterTreeItems (items : List FolderItem) (filterText : JStr)
    (x : FolderItem) :
    x ∈ filterTreeItems items filterText
      ↔ x ∈ items ∧ (filterText.isEmpty = false →
          jsIncludes (toLowerL x.name) (toLowerL filterText) = true) := by
  unfold filterTreeItems
  by_cases h : filterText.isEmpty = true
  · rw [if_pos h]
    simp [h]
  · have hf : filterText.isEmpty = false := by
      cases hh : filterText.isEmpty
      · rfl
      · exact absurd hh h
    rw [if_neg h, List.mem_filter]
    simp [hf]

/-- C8, counterexample to the claim as stated, in two parts.
Trim: with active filter `" b"`, the file pane keeps the file named `"ab"`
(the code matches against the trimmed filter `"b"`), although `"ab"` does
not contain the filter string `" b"` — so the kept set is not "exactly the
items whose name contains the filter string".  Folder pane: with an empty
filter, a cached file-type item whose name trivially contains the filter is
nonetheless absent from the rebuilt visible list (the render loop keeps only
folder-type items). -/
theorem C8_counterexample :
    (renderFileListModel [⟨['a', 'b'], none, none⟩] [' ', 'b']
        FilesSortMethod.name SortDirection.asc = [⟨['a', 'b'], none, none⟩]
      ∧ jsIncludes (toLowerL ['a', 'b']) (toLowerL [' ', 'b']) = false)
    ∧ (buildVisibleFolders [⟨['a'], none, none, ItemType.file⟩] []
        FoldersSortMethod.name SortDirection.asc = []
      ∧ jsIncludes (toLowerL ['a']) (toLowerL []) = true
      ∧ (⟨['a'], none, none, ItemType.file⟩ : FolderItem)
          ∈ [(⟨['a'], none, none, ItemType.file⟩ : FolderItem)]) := by
  refine ⟨⟨?_, by decide⟩, ⟨?_, by decide, by decide⟩⟩
  · decide
  · decide

/-- C8 (amended): the rebuilt visible list is computed deterministically by
filtering then sorting.  File pane: keep exactly the items whose lowercased
name contains the lowercased **trimmed** filter (all items when it trims to
empty), then sort stably by the chosen field and direction — the result is a
permutation of the filtered list, is sorted under the comparator relation
`cmp a b ≤ 0`, and any pair in comparator order (in particular any pair with
equal sort keys) keeps its relative order.  Folder pane: keep exactly the
items whose lowercased name contains the lowercased (untrimmed) filter, sort
stably likewise, and render only the folder-type items. -/
theorem C8_rebuildVisible (files : List FileItem) (cache : List FolderItem)
    (filesFilter filterText : JStr) (mf : FilesSortMethod)
    (md : FoldersSortMethod) (dir : SortDirection) :
    (renderFileListModel files filesFilter mf dir).Perm
        (filterFiles files filesFilter)
    ∧ (∀ x, x ∈ renderFileListModel files filesFilter mf dir
        ↔ x ∈ files ∧ (0 < (jsTrim (toLowerL filesFilter)).length →
            jsIncludes (toLowerL x.name) (jsTrim (toLowerL filesFilter)) = true))
    ∧ (renderFileListModel files filesFilter mf dir).Pairwise
        (fun a b => sortFilesCmp mf dir a b ≤ 0)
    ∧ (∀ a b, sortFilesCmp mf dir a b ≤ 0 →
        List.Sublist [a, b] (filterFiles files filesFilter) →
        List.Sublist [a, b] (renderFileListModel files filesFilter mf dir))
    ∧ (buildVisibleFolders cache filterText md dir).Perm
        ((filterTreeItems cache filterText).filter
          fun it => it.type == ItemType.folder)
    ∧ (∀ x, x ∈ buildVisibleFolders cache filterText md dir
        ↔ (x ∈ cache ∧ (filterText.isEmpty = false →
            jsIncludes (toLowerL x.name) (toLowerL filterText) = true))
          ∧ x.type = ItemType.folder)
    ∧ (buildVisibleFolders cache filterText md dir).Pairwise
        (fun a b => sortItemsCmp md dir a b ≤ 0)
    ∧ (∀ a b, sortItemsCmp md dir a b ≤ 0 →
        List.Sublist [a, b] (filterTreeItems cache filterText) →
        a.type = ItemType.folder → b.type = ItemType.folder →
        List.Sublist [a, b] (buildVisibleFolders cache filterText md dir)) := by
  letI : IsTrans FileItem (fun a b => sortFilesCmp mf dir a b ≤ 0) :=
    ⟨sortFilesCmp_le_trans mf dir⟩
  letI : IsTotal FileItem (fun a b => sortFilesCmp mf dir a b ≤ 0) :=
    ⟨sortFilesCmp_le_total mf dir⟩
  letI : IsTrans FolderItem (fun a b => sortItemsCmp md dir a b ≤ 0) :=
    ⟨sortItemsCmp_le_trans md dir⟩
  letI : IsTotal FolderItem (fun a b => sortItemsCmp md dir a b ≤ 0) :=
    ⟨sortItemsCmp_le_total md dir⟩
  have hfsorted := List.sorted_insertionSort
    (fun a b => sortFilesCmp mf dir a b ≤ 0) (filterFiles files filesFilter)
  have hdsorted := List.sorted_insertionSort
    (fun a b => sortItemsCmp md dir a b ≤ 0) (filterTreeItems cache filterText)
  refine ⟨List.perm_insertionSort _ _, ?_, hfsorted, ?_, ?_, ?_, ?_, ?_⟩
  · intro x
    unfold renderFileListModel sortFiles
    rw [List.mem_insertionSort]
    exact mem_filterFiles files filesFilter x
  · intro a b hab hsub
    exact List.pair_sublist_insertionSort hab hsub
  · unfold buildVisibleFolders sortItems
    exact List.Perm.filter _ (List.perm_insertionSort _ _)
  · intro x
    unfold buildVisibleFolders sortItems
    rw [List.mem_filter, List.mem_insertionSort, mem_filterTreeItems]
    rw [beq_iff_eq]
  · unfold buildVisibleFolders
    exact List.Pairwise.sublist (List.filter_sublist _) hdsorted
  · intro a b hab hsub hat hbt
    unfold buildVisibleFolders sortItems
    have h1 : List.Sublist [a, b] (List.insertionSort
        (fun a b => sortItemsCmp md dir a b ≤ 0) (filterTreeItems cache filterText)) :=
      List.pair_sublist_insertionSort hab hsub
    have h2 := List.Sublist.filter (fun it => it.type == ItemType.folder) h1
    have h3 : List.filter (fun it => it.type == ItemType.folder) [a, b] = [a, b] := by
      simp [List.filter, hat, hbt]
    rw [h3] at h2
    exact h2

/-- C8, witness: two files named `"a"` and `"A"` compare equal on the
lowercased name key, and their original relative order is kept by the
rebuilt visible list. -/
theorem C8_rebuildVisible_witness :
    (sortFilesCmp FilesSortMethod.name SortDirection.asc
        ⟨['a'], none, none⟩ ⟨['A'], none, none⟩ ≤ 0
      ∧ List.Sublist [(⟨['a'], none, none⟩ : FileItem), ⟨['A'], none, none⟩]
          (filterFiles [⟨['a'], none, none⟩, ⟨['A'], none, none⟩] []))
    ∧ List.Sublist [(⟨['a'], none, none⟩ : FileItem), ⟨['A'], none, none⟩]
        (renderFileListModel [⟨['a'], none, none⟩, ⟨['A'], none, none⟩] []
          FilesSortMethod.name SortDirection.asc) :=
  ⟨⟨by decide, List.Sublist.refl _⟩,
    (C8_rebuildVisible [⟨['a'], none, none⟩, ⟨['A'], none, none⟩] [] []
      [] FilesSortMethod.name FoldersSortMethod.name SortDirection.asc).2.2.2.1
      ⟨['a'], none, none⟩ ⟨['A'], none, none⟩ (by decide) (List.Sublist.refl _)⟩

/-! ## Copy vs in-place sorting (C10)

`sortFiles` is `return [...files].sort(cmp)` — the spread allocates a fresh
array, the sort mutates only that copy, and the cached `State.currentFiles`
is untouched.  `sortItems` is `return items.sort(cmp)` — it sorts its
argument in place and returns the same array.  `rebuildChildren` /
`buildTreeFromData` call `sortItems(filterTreeItems(treeData[path], f))`;
`filterTreeItems` returns `items` itself when the filter is empty (so the
cache array is then sorted in place) but a fresh `items.filter(...)` array
when a filter is active (so the cache is then untouched).
JS array references are modelled by a store mapping reference ids to list
contents; allocation uses the next fresh id. -/

structure Store (α : Type) where
  entries : List (Nat × List α)
  next : Nat
  deriving DecidableEq

def Store.read (st : Store α) (r : Nat) : List α := (st.entries.lookup r).getD []

def Store.write (st : Store α) (r : Nat) (v : List α) : Store α :=
  ⟨st.entries.map (fun e => if e.1 = r then (r, v) else e), st.next⟩

def Store.alloc (st : Store α) (v : List α) : Store α × Nat :=
  (⟨st.entries ++ [(st.next, v)], st.next + 1⟩, st.next)

def Store.WF (st : Store α) : Prop := ∀ e ∈ st.entries, e.1 < st.next

/-- `return [...files].sort(cmp)`: allocate a copy, sort the copy, return
the fresh reference. -/
def sortFilesOp (m : FilesSortMethod) (dir : SortDirection)
    (st : Store FileItem) (r : Nat) : Store FileItem × Nat :=
  st.alloc (sortFiles m dir (st.read r))

/-- `return items.sort(cmp)`: write the sorted contents back through the
same reference and return it. -/
def sortItemsOp (m : FoldersSortMethod) (dir : SortDirection)
    (st : Store FolderItem) (r : Nat) : Store FolderItem × Nat :=
  (st.write r (sortItems m dir (st.read r)), r)

/-- `filterTreeItems`: the same reference when the filter is empty, a fresh
filtered array otherwise. -/
def filterTreeItemsOp (st : Store FolderItem) (r : Nat) (filterText : JStr) :
    Store FolderItem × Nat :=
  if filterText.isEmpty then (st, r)
  else st.alloc ((st.read r).filter
    fun it => jsIncludes (toLowerL it.name) (toLowerL filterText))

/-- The cache-visible effect of one `rebuildChildren` list pass:
`sortItems(filterTreeItems(cacheArray, filterText))`. -/
def rebuildChildrenOp (m : FoldersSortMethod) (dir : SortDirection)
    (st : Store FolderItem) (cacheRef : Nat) (filterText : JStr) :
    Store FolderItem :=
  (sortItemsOp m dir (filterTreeItemsOp st cacheRef filterText).1
    (filterTreeItemsOp st cacheRef filterText).2).1

theorem lookup_append {β : Type} (l1 l2 : List (Nat × β)) (r : Nat) :
    (l1 ++ l2).lookup r = ((l1.lookup r) <|> (l2.lookup r)) := by
  induction l1 with
  | nil => simp [List.lookup]
  | cons e l1 ih =>
    rcases e with ⟨k, b⟩
    show List.lookup r ((k, b) :: (l1 ++ l2)) = _
    rw [List.lookup]
    cases hk : r == k
    · show List.lookup r (l1 ++ l2)
        = ((match r == k with
            | true => some b
            | false => List.lookup r l1) <|> List.lookup r l2)
      rw [hk]
      exact ih
    · show some b
        = ((match r == k with
            | true => some b
            | false => List.lookup r l1) <|> List.lookup r l2)
      rw [hk]
      rfl

theorem lookup_none_of_keys_lt {β : Type} (es : List (Nat × β)) (n : Nat)
    (h : ∀ e ∈ es, e.1 < n) : es.lookup n = none := by
  induction es with
  | nil => rfl
  | cons e es ih =>
    rcases e with ⟨k, b⟩
    have hk : k < n := h (k, b) (List.mem_cons_self _ _)
    rw [List.lookup]
    have hne : (n == k) = false := by
      rw [beq_eq_false_iff_ne]
      omega
    rw [hne]
    exact ih fun e he => h e (List.mem_cons_of_mem _ he)

theorem lookup_map_write {α : Type} (es : List (Nat × List α)) (r : Nat)
    (v : List α) (h : (es.lookup r).isSome = true) :
    (es.map fun e => if e.1 = r then (r, v) else e).lookup r = some v := by
  induction es with
  | nil => simp [List.lookup] at h
  | cons e es ih =>
    rcases e with ⟨k, b⟩
    rw [List.lookup] at h
    by_cases hk : k = r
    · subst hk
      rw [List.map_cons, if_pos rfl]
      show List.lookup k ((k, v) :: _) = some v
      rw [List.lookup, beq_self_eq_true]
    · have hkb : (r == k) = false := beq_eq_false_iff_ne.mpr fun hc => hk hc.symm
      rw [hkb] at h
      rw [List.map_cons, if_neg hk]
      show List.lookup r ((k, b) :: _) = some v
      rw [List.lookup, hkb]
      exact ih h

theorem lookup_map_write_other {α : Type} (es : List (Nat × List α))
    (r r2 : Nat) (v : List α) (h : r2 ≠ r) :
    (es.map fun e => if e.1 = r then (r, v) else e).lookup r2 = es.lookup r2 := by
  induction es with
  | nil => rfl
  | cons e es ih =>
    rcases e with ⟨k, b⟩
    by_cases hk : k = r
    · subst hk
      rw [List.map_cons, if_pos rfl]
      show List.lookup r2 ((k, v) :: _) = List.lookup r2 ((k, b) :: _)
      have hker : (r2 == k) = false := beq_eq_false_iff_ne.mpr h
      rw [List.lookup, hker, List.lookup, hker]
      exact ih
    · rw [List.map_cons, if_neg hk]
      show List.lookup r2 ((k, b) :: _) = List.lookup r2 ((k, b) :: _)
      rw [List.lookup, List.lookup]
      cases hkr : r2 == k
      · exact ih
      · rfl

theorem read_alloc_self {α : Type} {st : Store α} {v : List α}
    (h : st.WF) : (st.alloc v).1.read st.next = v := by
  unfold Store.alloc Store.read
  simp only
  rw [lookup_append, lookup_none_of_keys_lt st.entries st.next h]
  show (List.lookup st.next [(st.next, v)]).getD [] = v
  rw [List.lookup, beq_self_eq_true]
  rfl

theorem read_alloc_other {α : Type} {st : Store α} {v : List α} {r : Nat}
    (h : r ≠ st.next) : (st.alloc v).1.read r = st.read r := by
  unfold Store.alloc Store.read
  simp only
  rw [lookup_append]
  cases hl : st.entries.lookup r
  · have hne : (r == st.next) = false := beq_eq_false_iff_ne.mpr h
    show (List.lookup r [(st.next, v)]).getD [] = _
    rw [List.lookup, hne]
    rfl
  · simp

theorem read_write_self {α : Type} {st : Store α} {r : Nat} {v : List α}
    (h : (st.entries.lookup r).isSome = true) : (st.write r v).read r = v := by
  unfold Store.write Store.read
  simp only
  rw [lookup_map_write st.entries r v h]
  rfl

theorem read_write_other {α : Type} {st : Store α} {r r2 : Nat} {v : List α}
    (h : r2 ≠ r) : (st.write r v).read r2 = st.read r2 := by
  unfold Store.write Store.read
  simp only
  rw [lookup_map_write_other st.entries r r2 v h]

/-- C10, counterexample to the claim as stated: with a nonempty active
filter (here `"a"`, matching both cached names), `filterTreeItems` allocates
a fresh array, `sortItems` sorts only that copy, and the cached child array
keeps its original unsorted order — this rebuild does not permute the
subtree cache. -/
theorem C10_counterexample :
    (rebuildChildrenOp FoldersSortMethod.name SortDirection.asc
        ⟨[(0, [⟨['b', 'a'], none, none, ItemType.folder⟩,
            ⟨['a', 'a'], none, none, ItemType.folder⟩])], 1⟩ 0 ['a']).read 0
      = [⟨['b', 'a'], none, none, ItemType.folder⟩,
          ⟨['a', 'a'], none, none, ItemType.folder⟩]
    ∧ sortItems FoldersSortMethod.name SortDirection.asc
        [⟨['b', 'a'], none, none, ItemType.folder⟩,
          ⟨['a', 'a'], none, none, ItemType.folder⟩]
      = [⟨['a', 'a'], none, none, ItemType.folder⟩,
          ⟨['b', 'a'], none, none, ItemType.folder⟩]
    ∧ ([⟨['b', 'a'], none, none, ItemType.folder⟩,
          ⟨['a', 'a'], none, none, ItemType.folder⟩] : List FolderItem)
      ≠ [⟨['a', 'a'], none, none, ItemType.folder⟩,
          ⟨['b', 'a'], none, none, ItemType.folder⟩] := by decide

/-- C10 (amended): `sortFiles` returns a newly allocated array and leaves
its input array unchanged in content and order, whereas `sortItems` returns
its argument sorted in place; hence a tree rebuild with an empty filter
permutes the cached child array in the subtree cache into sorted order,
while a rebuild with a nonempty filter sorts a freshly allocated filtered
copy and leaves the cache array untouched. -/
theorem C10_sortAliasing (mf : FilesSortMethod) (md : FoldersSortMethod)
    (dir : SortDirection) (stF : Store FileItem) (stD : Store FolderItem)
    (r : Nat) (hwfF : stF.WF) (hrF : r < stF.next) :
    ((sortFilesOp mf dir stF r).2 ≠ r
      ∧ (sortFilesOp mf dir stF r).1.read r = stF.read r
      ∧ (sortFilesOp mf dir stF r).1.read (sortFilesOp mf dir stF r).2
        = sortFiles mf dir (stF.read r))
    ∧ ((sortItemsOp md dir stD r).2 = r
      ∧ ((stD.entries.lookup r).isSome = true →
        (sortItemsOp md dir stD r).1.read r = sortItems md dir (stD.read r))
      ∧ (∀ r2, r2 ≠ r → (sortItemsOp md dir stD r).1.read r2 = stD.read r2))
    ∧ ((stD.entries.lookup r).isSome = true →
      (rebuildChildrenOp md dir stD r []).read r = sortItems md dir (stD.read r))
    ∧ (∀ filterText : JStr, filterText.isEmpty = false → r < stD.next →
      (rebuildChildrenOp md dir stD r filterText).read r = stD.read r) := by
  refine ⟨⟨?_, ?_, ?_⟩, ⟨rfl, ?_, ?_⟩, ?_, ?_⟩
  · show stF.next ≠ r
    omega
  · exact read_alloc_other (by omega)
  · exact read_alloc_self hwfF
  · intro h
    exact read_write_self h
  · intro r2 h
    exact read_write_other h
  · intro h
    show (stD.write r (sortItems md dir (stD.read r))).read r
      = sortItems md dir (stD.read r)
    exact read_write_self h
  · intro filterText hft hrD
    unfold rebuildChildrenOp filterTreeItemsOp
    rw [if_neg (by rw [hft]; exact Bool.false_ne_true)]
    show (Store.write _ stD.next _).read r = _
    rw [read_write_other (by omega)]
    exact read_alloc_other (by omega)

/-- C10, witness: the amended theorem at a one-entry store. -/
theorem C10_sortAliasing_witness :
    ((⟨[(0, [⟨['a'], none, none⟩])], 1⟩ : Store FileItem).WF ∧ (0 : Nat) < 1)
    ∧ ((sortFilesOp FilesSortMethod.name SortDirection.asc
          ⟨[(0, [⟨['a'], none, none⟩])], 1⟩ 0).2 ≠ 0
      ∧ (sortFilesOp FilesSortMethod.name SortDirection.asc
          ⟨[(0, [⟨['a'], none, none⟩])], 1⟩ 0).1.read 0
        = (⟨[(0, [⟨['a'], none, none⟩])], 1⟩ : Store FileItem).read 0
      ∧ (sortFilesOp FilesSortMethod.name SortDirection.asc
            ⟨[(0, [⟨['a'], none, none⟩])], 1⟩ 0).1.read
          (sortFilesOp FilesSortMethod.name SortDirection.asc
            ⟨[(0, [⟨['a'], none, none⟩])], 1⟩ 0).2
        = sortFiles FilesSortMethod.name SortDirection.asc
            ((⟨[(0, [⟨['a'], none, none⟩])], 1⟩ : Store FileItem).read 0)) :=
  ⟨⟨fun e he => by rcases List.mem_singleton.mp he with rfl; decide, by decide⟩,
    (C10_sortAliasing FilesSortMethod.name FoldersSortMethod.name
      SortDirection.asc ⟨[(0, [⟨['a'], none, none⟩])], 1⟩ ⟨[], 0⟩ 0
      (fun e he => by rcases List.mem_singleton.mp he with rfl; decide)
      (by decide)).1⟩

end MetadataRemote
